import Mathlib

/-!
The RCS revision walk of git-migrator, `internal/vcs/cvs/rcs_types.go`, and the
migrations table of its web server, `internal/web/server.go`.

A shallow embedding of `RCSFile.GetCommits`, `RCSFile.GetBranches`,
`RCSFile.GetTags`, `isBranchNumber` and `isBranchPrefix`, with the properties
of the commit extraction and of the symbol classification proved about it; of
the API handlers of `Server`, with the properties of the migrations table; and
a model of the author mapping of `internal/mapping`, whose source is absent.

Modelling conventions:

* a Go `string` is a Lean `String`, read through its character list
  (`String.data`). On valid UTF-8 text a byte-wise prefix or substring test
  and the character-wise one agree, and `'.'` is a one-byte character, so the
  byte-oriented Go operations used here (`len`, `s[:n]`, `strings.Contains`,
  `range`) are rendered on characters;
* a Go `map[string]T` is an association list read by `mapGet` (first entry
  for a key); the order of the list is the order in which `range` enumerates
  the map, taken to be the same for every `range` over it in one run. A `nil`
  `*Delta` stored under a key behaves exactly like an absent key in this
  code, so the delta table stores deltas, not pointers;
* `time.Time` is an instant, an `Int`;
* the recursive closure `addCommit` mutates `seen` and `commits`; here it
  passes a `WalkState` explicitly. Its recursion is bounded by a depth budget
  (`none` means the budget was exhausted), and the budget is proved to be
  sufficient.
-/

namespace GitMigrator

/-! ## Data model -/

/-- Delta represents a single revision in an RCS file. -/
structure Delta where
  Revision : String
  Date : Int
  Author : String
  State : String
  Branches : List String
  Next : String
  Log : String
  Text : String
deriving DecidableEq, Repr

/-- Commit represents a commit extracted from RCS deltas. -/
structure Commit where
  Revision : String
  Author : String
  Date : Int
  Message : String
  Branch : String
deriving DecidableEq, Repr

/-- RCSFile represents a parsed RCS file. -/
structure RCSFile where
  Head : String
  Branch : String
  Access : List String
  Symbols : List (String × String)
  Locks : List (String × String)
  StrictLocks : Bool
  Comment : String
  Description : String
  Deltas : List (String × Delta)
  DeltaOrder : List String
deriving Repr

/-- Map read `m[key]`: the value of the first entry stored under `key`. -/
def mapGet {β : Type} : List (String × β) → String → Option β
  | [], _ => none
  | (k, v) :: rest, key => if k = key then some v else mapGet rest key

/-! ## String helpers -/

/-- Prefix test on character lists, the comparison `s[:len(p)] == p`. -/
def hasPrefix : List Char → List Char → Bool
  | _, [] => true
  | [], _ :: _ => false
  | c :: s, d :: p => if c = d then hasPrefix s p else false

/-- Go `strings.Contains(s, substr)` on character lists. -/
def stringsContains : List Char → List Char → Bool
  | [], substr => hasPrefix [] substr
  | c :: s, substr => hasPrefix (c :: s) substr || stringsContains s substr

/-- The dot-counting loop of `isBranchNumber`:
`for _, c := range rev { if c == '.' { dots++ } }`, started at `dots`. -/
def countDots : List Char → Nat → Nat
  | [], dots => dots
  | c :: rest, dots => if c = '.' then countDots rest (dots + 1) else countDots rest dots

/-- Go `isBranchNumber(rev string) bool`. -/
def isBranchNumber (rev : String) : Bool :=
  if stringsContains rev.data ".0.".data then true
  else decide (countDots rev.data 0 ≥ 3)

/-- Go `isBranchPrefix(branchNum, rev string) bool`. -/
def isBranchPrefix (branchNum rev : String) : Bool :=
  if rev.data.length < branchNum.data.length then false
  else decide (rev.data.take branchNum.data.length = branchNum.data)

/-! ## The commit walk -/

/-- The mutable variables captured by the closure `addCommit`:
`seen` (the keys set to `true`) and `commits`. -/
structure WalkState where
  seen : List String
  commits : List Commit
deriving DecidableEq, Repr

/-- The symbol loop inside `addCommit`:
`branchName := ""; for sym, symRev := range r.Symbols { if symRev == branchRev ||
isBranchPrefix(symRev, branchRev) { branchName = sym; break } }`. -/
def findBranchSymbol : List (String × String) → String → String
  | [], _ => ""
  | (sym, symRev) :: rest, branchRev =>
    if symRev = branchRev ∨ isBranchPrefix symRev branchRev = true then sym
    else findBranchSymbol rest branchRev

/-- The loop `for _, branchRev := range delta.Branches { step(branchRev) }`,
threading the walk state; it stops as soon as one step has no result. -/
def walkBranches (step : String → WalkState → Option WalkState) :
    List String → WalkState → Option WalkState
  | [], st => some st
  | branchRev :: rest, st => (step branchRev st).bind (walkBranches step rest)

/-- The closure `addCommit(rev, branch)` of `GetCommits`, with a recursion-depth
budget as first argument; `none` is returned only when the budget runs out. -/
def addCommit (r : RCSFile) : Nat → String → String → WalkState → Option WalkState
  | 0, _, _, _ => none
  | fuel + 1, rev, branch, st =>
    if rev = "" ∨ rev ∈ st.seen then some st
    else
      match mapGet r.Deltas rev with
      | none => some { seen := rev :: st.seen, commits := st.commits }
      | some delta =>
        let st1 : WalkState :=
          { seen := rev :: st.seen
            commits := st.commits ++
              [{ Revision := rev, Author := delta.Author, Date := delta.Date,
                 Message := delta.Log, Branch := branch }] }
        (walkBranches
            (fun branchRev =>
              addCommit r fuel branchRev (findBranchSymbol r.Symbols branchRev))
            delta.Branches st1).bind
          (addCommit r fuel delta.Next branch)

/-- The body of `GetCommits` run with recursion-depth budget `fuel`:
`addCommit(r.Head, "")` from empty `seen` and `commits`, then `return commits`. -/
def GetCommitsFuel (r : RCSFile) (fuel : Nat) : Option (List Commit) :=
  (addCommit r fuel r.Head "" { seen := [], commits := [] }).map WalkState.commits

/-- Go `(r *RCSFile) GetCommits() []*Commit`. The budget, one more than the
size of the delta table, is never exhausted. -/
def GetCommits (r : RCSFile) : List Commit :=
  (GetCommitsFuel r (r.Deltas.length + 1)).getD []

/-! ## Branches and tags -/

/-- Map write `m[key] = v`: the entry under `key` is overwritten, a new key is added. -/
def mapSet {β : Type} : List (String × β) → String → β → List (String × β)
  | [], key, v => [(key, v)]
  | (k, w) :: rest, key, v => if k = key then (k, v) :: rest else (k, w) :: mapSet rest key v

/-- Go `(r *RCSFile) GetBranches() []string`: the loop
`for sym, rev := range r.Symbols { if isBranchNumber(rev) { branches = append(branches, sym) } }`. -/
def GetBranches (r : RCSFile) : List String :=
  r.Symbols.foldl
    (fun branches p => if isBranchNumber p.2 = true then branches ++ [p.1] else branches) []

/-- Go `(r *RCSFile) GetTags() map[string]string`: the loop
`for sym, rev := range r.Symbols { if !isBranchNumber(rev) { tags[sym] = rev } }`. -/
def GetTags (r : RCSFile) : List (String × String) :=
  r.Symbols.foldl
    (fun tags p => if isBranchNumber p.2 = false then mapSet tags p.1 p.2 else tags) []

/-! ## The slice of `isBranchPrefix` with its bounds check -/

/-- Go slice expression `s[:n]`; `none` stands for the run-time panic raised when
`n` exceeds `len(s)`. -/
def sliceTo {α : Type} (s : List α) (n : Nat) : Option (List α) :=
  if n ≤ s.length then some (s.take n) else none

/-- Go `isBranchPrefix(branchNum, rev string) bool` over any element type (bytes
or characters), with the slice `rev[:len(branchNum)]` checked: `none` would be
an out-of-range panic. -/
def isBranchPrefixChecked {α : Type} [DecidableEq α] (branchNum rev : List α) : Option Bool :=
  if rev.length < branchNum.length then some false
  else (sliceTo rev branchNum.length).map (fun head => decide (head = branchNum))

/-! ## Author mapping, `internal/mapping` -/

/-- Modelled from the spec: the type `AuthorMap` of `internal/mapping`, whose
source is not among the files (only `authors_test.go` is): the table from
usernames to `Name <email>` entries and the configured default domain. -/
structure AuthorMap where
  mapping : List (String × String)
  defaultEmail : String
deriving DecidableEq, Repr

/-- Modelled from the spec: `NewAuthorMapWithDefault(config, defaultDomain)`, which
is missing from the sources; a nil config (`none`) gives the empty table. -/
def NewAuthorMapWithDefault (config : Option (List (String × String)))
    (defaultDomain : String) : AuthorMap :=
  { mapping := config.getD [], defaultEmail := defaultDomain }

/-- Modelled from the spec: `NewAuthorMap(config)`, which is missing from the
sources; the default domain is `users.noreply.cvs.example.org`. -/
def NewAuthorMap (config : Option (List (String × String))) : AuthorMap :=
  NewAuthorMapWithDefault config "users.noreply.cvs.example.org"

/-- Modelled from the spec: `AuthorMap.Get(username)`, which is missing from the
sources: the name and email of the entry of `username` when there is one and it
parses, otherwise `username` as the name and `username@<default domain>` as the
email. The entry parser `ParseAuthor`, also missing, is the parameter
`parseAuthor`. -/
def AuthorMap.Get (parseAuthor : String → Option (String × String)) (am : AuthorMap)
    (username : String) : String × String :=
  match (mapGet am.mapping username).bind parseAuthor with
  | some entry => entry
  | none => (username, username ++ "@" ++ am.defaultEmail)

/-! ## The web server, `internal/web/server.go`

Each handler is a function from the server state and the inputs it reads (the
decoded request body, the URL parameter, the identifier drawn by `uuid.New` and
the clock reading of `time.Now`) to the new state and the response written.
The migrations table is only touched inside `s.mu.Lock`, so a handler is one
atomic step. Every `*MigrationStatus` in the table is allocated by
`handleStartMigration` and stored under one key, so the table holds values. -/

/-- Modelled from the spec: the type `ServerConfig` declared in `types.go`, which
is not among the sources; the fields are those `types_test.go` uses. -/
structure ServerConfig where
  Port : Int
  ConfigPath : String
  DatabasePath : String
deriving DecidableEq, Repr

/-- Modelled from the spec: the type `MigrationStatus` declared in `types.go`,
which is not among the sources; the fields are those `handleStartMigration`
sets. Times are instants. -/
structure MigrationStatus where
  ID : String
  Status : String
  Percentage : Int
  CurrentStep : String
  TotalCommits : Int
  ProcessedCommits : Int
  Errors : List String
  CreatedAt : Int
  UpdatedAt : Int
deriving DecidableEq, Repr

/-- Modelled from the spec: the type `StartMigrationRequest` declared in
`types.go`, which is not among the sources; `Options` (a JSON object) is kept as
text, no handler reads it. -/
structure StartMigrationRequest where
  SourceType : String
  SourcePath : String
  TargetPath : String
  Options : List (String × String)
deriving DecidableEq, Repr

/-- Modelled from the spec: the type `AnalyzeRequest` declared in `types.go`,
which is not among the sources. -/
structure AnalyzeRequest where
  SourceType : String
  SourcePath : String
deriving DecidableEq, Repr

/-- Modelled from the spec: the type `APIError` declared in `types.go`, which is
not among the sources. -/
structure APIError where
  Code : String
  Message : String
deriving DecidableEq, Repr

/-- The values the handlers pass as `Data` (an `interface{}`) of a response. -/
inductive ResponseData where
  | none
  | health (status version : String)
  | migrations (all : List MigrationStatus)
  | migration (m : MigrationStatus)
  | started (id status message : String)
  | stopped (id status message : String)
  | config (chunkSize : Int) (verbose dryRun : Bool)
  | message (text : String)
  | analysis (type path : String)
deriving DecidableEq, Repr

/-- Modelled from the spec: the type `APIResponse` declared in `types.go`, which
is not among the sources. -/
structure APIResponse where
  Success : Bool
  Data : ResponseData
  Error : Option APIError
deriving DecidableEq, Repr

/-- Modelled from the spec: `SuccessResponse(data)` of `types.go`, which is not
among the sources; its tests fix `Success = true`, the data and no error. -/
def SuccessResponse (data : ResponseData) : APIResponse :=
  { Success := true, Data := data, Error := none }

/-- Modelled from the spec: `ErrorResponse(code, message)` of `types.go`, which is
not among the sources; its tests fix `Success = false`, no data and the error
with the given code and message. -/
def ErrorResponse (code message : String) : APIResponse :=
  { Success := false, Data := ResponseData.none,
    Error := some { Code := code, Message := message } }

/-- What a handler wrote to the `http.ResponseWriter`: the status code (200 when
`WriteHeader` is not called) and the encoded body. -/
structure HTTPResponse where
  Status : Nat
  Body : APIResponse
deriving DecidableEq, Repr

/-- Server is the web server: its configuration and the migrations table (the
router and the mutex are left out). -/
structure Server where
  config : ServerConfig
  migrations : List (String × MigrationStatus)
deriving DecidableEq, Repr

/-- Go `NewServer(config)`. -/
def NewServer (config : ServerConfig) : Server :=
  { config := config, migrations := [] }

/-- Go `(s *Server) handleHealth`. -/
def handleHealth (s : Server) : Server × HTTPResponse :=
  (s, { Status := 200, Body := SuccessResponse (ResponseData.health "ok" "0.1.0") })

/-- Go `(s *Server) handleListMigrations`. -/
def handleListMigrations (s : Server) : Server × HTTPResponse :=
  (s, { Status := 200,
        Body := SuccessResponse (ResponseData.migrations (s.migrations.map Prod.snd)) })

/-- Go `(s *Server) handleStartMigration`; `body` is the result of decoding the
request body (`none` when `Decode` returns an error), `id` the string of
`uuid.New()` and `now` the reading of `time.Now()`. -/
def handleStartMigration (s : Server) (body : Option StartMigrationRequest) (id : String)
    (now : Int) : Server × HTTPResponse :=
  match body with
  | none => (s, { Status := 400, Body := ErrorResponse "INVALID_JSON" "Invalid JSON body" })
  | some req =>
    if req.SourceType = "" ∨ req.SourcePath = "" ∨ req.TargetPath = "" then
      (s, { Status := 400,
            Body := ErrorResponse "VALIDATION_ERROR" "Missing required fields" })
    else
      let migration : MigrationStatus :=
        { ID := id, Status := "pending", Percentage := 0, CurrentStep := "Initializing",
          TotalCommits := 0, ProcessedCommits := 0, Errors := [],
          CreatedAt := now, UpdatedAt := now }
      ({ s with migrations := mapSet s.migrations id migration },
       { Status := 201,
         Body := SuccessResponse
           (ResponseData.started id migration.Status "Migration started") })

/-- Go `(s *Server) handleGetMigration`; `id` is the URL parameter. -/
def handleGetMigration (s : Server) (id : String) : Server × HTTPResponse :=
  match mapGet s.migrations id with
  | none => (s, { Status := 404, Body := ErrorResponse "NOT_FOUND" "Migration not found" })
  | some migration =>
    (s, { Status := 200, Body := SuccessResponse (ResponseData.migration migration) })

/-- Go `(s *Server) handleStopMigration`; `id` is the URL parameter and `now` the
reading of `time.Now()`. -/
def handleStopMigration (s : Server) (id : String) (now : Int) : Server × HTTPResponse :=
  match mapGet s.migrations id with
  | some migration =>
    ({ s with
        migrations :=
          mapSet s.migrations id { migration with Status := "stopped", UpdatedAt := now } },
     { Status := 200,
       Body := SuccessResponse (ResponseData.stopped id "stopped" "Migration stopped") })
  | none => (s, { Status := 404, Body := ErrorResponse "NOT_FOUND" "Migration not found" })

/-- Go `(s *Server) handleGetConfig`. -/
def handleGetConfig (s : Server) : Server × HTTPResponse :=
  (s, { Status := 200, Body := SuccessResponse (ResponseData.config 100 false false) })

/-- Go `(s *Server) handleUpdateConfig`; `decoded` tells whether the body decoded. -/
def handleUpdateConfig (s : Server) (decoded : Bool) : Server × HTTPResponse :=
  if decoded then
    (s, { Status := 200, Body := SuccessResponse (ResponseData.message "Configuration updated") })
  else (s, { Status := 400, Body := ErrorResponse "INVALID_JSON" "Invalid JSON body" })

/-- Go `(s *Server) handleAnalyzeRepo`; `body` is the decoded request body. -/
def handleAnalyzeRepo (s : Server) (body : Option AnalyzeRequest) : Server × HTTPResponse :=
  match body with
  | none => (s, { Status := 400, Body := ErrorResponse "INVALID_JSON" "Invalid JSON body" })
  | some req =>
    if req.SourceType = "" ∨ req.SourcePath = "" then
      (s, { Status := 400,
            Body := ErrorResponse "VALIDATION_ERROR" "Missing required fields" })
    else
      (s, { Status := 200,
            Body := SuccessResponse (ResponseData.analysis req.SourceType req.SourcePath) })

/-- A call of one of the API handlers together with the inputs it reads. -/
inductive Request where
  | health
  | list
  | start (body : Option StartMigrationRequest) (id : String) (now : Int)
  | get (id : String)
  | stop (id : String) (now : Int)
  | getConfig
  | updateConfig (decoded : Bool)
  | analyze (body : Option AnalyzeRequest)
deriving DecidableEq, Repr

/-- The routes of `setupRouter` for the API handlers: the handler run for a call. -/
def Server.handle (s : Server) : Request → Server × HTTPResponse
  | Request.health => handleHealth s
  | Request.list => handleListMigrations s
  | Request.start body id now => handleStartMigration s body id now
  | Request.get id => handleGetMigration s id
  | Request.stop id now => handleStopMigration s id now
  | Request.getConfig => handleGetConfig s
  | Request.updateConfig decoded => handleUpdateConfig s decoded
  | Request.analyze body => handleAnalyzeRepo s body

/-! ## Test fixtures -/

/-- A delta with the given branches and next pointer, other fields fixed. -/
def mkDelta (rev author log : String) (date : Int) (branches : List String) (next : String) :
    Delta :=
  { Revision := rev, Date := date, Author := author, State := "Exp", Branches := branches,
    Next := next, Log := log, Text := "" }

/-- An RCS file with the given head, symbols and deltas, other fields empty. -/
def mkFile (head : String) (symbols : List (String × String)) (deltas : List (String × Delta)) :
    RCSFile :=
  { Head := head, Branch := "", Access := [], Symbols := symbols, Locks := [],
    StrictLocks := false, Comment := "", Description := "", Deltas := deltas,
    DeltaOrder := deltas.map Prod.fst }

/-- The branch fixture of the specification: `FEATURE_X -> 1.2.0.2`, delta `1.2`
with `Branches = [1.2.2.1]`. -/
def featureFile : RCSFile :=
  mkFile "1.2" [("FEATURE_X", "1.2.0.2")]
    [("1.2", mkDelta "1.2" "alice" "second" 200 ["1.2.2.1"] "1.1"),
     ("1.1", mkDelta "1.1" "alice" "first" 100 [] ""),
     ("1.2.2.1", mkDelta "1.2.2.1" "bob" "on branch" 300 [] "")]

/-- A malformed file whose only delta names itself as `next` and as a branch. -/
def selfLoopFile : RCSFile :=
  mkFile "1.1" [] [("1.1", mkDelta "1.1" "alice" "first" 100 ["1.1"] "1.1")]

/-- A malformed file whose `next` pointers form the cycle `1.2 -> 1.1 -> 1.2`. -/
def cycleFile : RCSFile :=
  mkFile "1.2" []
    [("1.2", mkDelta "1.2" "alice" "second" 200 [] "1.1"),
     ("1.1", mkDelta "1.1" "alice" "first" 100 [] "1.2")]

/-- The well-formed file obtained from `cycleFile` by ending the chain at `1.1`. -/
def cutFile : RCSFile :=
  mkFile "1.2" []
    [("1.2", mkDelta "1.2" "alice" "second" 200 [] "1.1"),
     ("1.1", mkDelta "1.1" "alice" "first" 100 [] "")]

/-- A corrupt file: the `next` of `1.2` names `1.1`, which has no delta. -/
def danglingFile : RCSFile :=
  mkFile "1.2" [] [("1.2", mkDelta "1.2" "alice" "second" 200 [] "1.1")]

/-- The file `danglingFile` with the dangling pointer cleared. -/
def singleFile : RCSFile :=
  mkFile "1.2" [] [("1.2", mkDelta "1.2" "alice" "second" 200 [] "")]

/-- The trunk fixture: head `1.3` with `1.3 -> 1.2 -> 1.1`. -/
def trunkFile : RCSFile :=
  mkFile "1.3" []
    [("1.1", mkDelta "1.1" "alice" "init" 100 [] ""),
     ("1.2", mkDelta "1.2" "alice" "init" 101 [] "1.1"),
     ("1.3", mkDelta "1.3" "alice" "fix" 102 [] "1.2")]

/-- A tag on the trunk revision `1.1` and a branch that leaves revision `1.10`. -/
def tagPrefixFile : RCSFile :=
  mkFile "1.10" [("REL_1_1", "1.1")]
    [("1.10", mkDelta "1.10" "alice" "tenth" 1000 ["1.10.2.1"] ""),
     ("1.10.2.1", mkDelta "1.10.2.1" "bob" "on branch" 1100 [] "")]

/-- Two tags on revision `1.2`, from which a branch leaves; `REL_A` is enumerated first. -/
def twoTagsFile : RCSFile :=
  mkFile "1.2" [("REL_A", "1.2"), ("REL_B", "1.2")]
    [("1.2", mkDelta "1.2" "alice" "second" 200 ["1.2.2.1"] ""),
     ("1.2.2.1", mkDelta "1.2.2.1" "bob" "on branch" 300 [] "")]

/-- The file `twoTagsFile` with its symbol table enumerated in the other order. -/
def twoTagsFileSwapped : RCSFile :=
  mkFile "1.2" [("REL_B", "1.2"), ("REL_A", "1.2")]
    [("1.2", mkDelta "1.2" "alice" "second" 200 ["1.2.2.1"] ""),
     ("1.2.2.1", mkDelta "1.2.2.1" "bob" "on branch" 300 [] "")]

/-- One plain tag on revision `1.2`, from which a branch leaves. -/
def taggedFile : RCSFile :=
  mkFile "1.2" [("RELEASE_1_0", "1.2")]
    [("1.2", mkDelta "1.2" "alice" "second" 200 ["1.2.2.1"] ""),
     ("1.2.2.1", mkDelta "1.2.2.1" "bob" "on branch" 300 [] "")]

/-- A branch symbol in the realized form `1.2.2`, the only symbol that matches
the branch head `1.2.2.1`. -/
def exactFile : RCSFile :=
  mkFile "1.2" [("RELEASE_1_0", "1.1"), ("FEATURE_X", "1.2.2")]
    [("1.2", mkDelta "1.2" "alice" "second" 200 ["1.2.2.1"] "1.1"),
     ("1.1", mkDelta "1.1" "alice" "first" 100 [] ""),
     ("1.2.2.1", mkDelta "1.2.2.1" "bob" "on branch" 300 [] "")]

/-- A trunk `1.3 -> 1.2 -> 1.1` with a branch off `1.2` committed between `1.2`
and `1.3`. -/
def datedFile : RCSFile :=
  mkFile "1.3" []
    [("1.3", mkDelta "1.3" "alice" "third" 300 [] "1.2"),
     ("1.2", mkDelta "1.2" "alice" "second" 200 ["1.2.2.1"] "1.1"),
     ("1.1", mkDelta "1.1" "alice" "first" 100 [] ""),
     ("1.2.2.1", mkDelta "1.2.2.1" "bob" "on branch" 250 [] "")]

/-- The file `cutFile` with the head delta in state `dead`. -/
def deadFile : RCSFile :=
  mkFile "1.2" []
    [("1.2", { Revision := "1.2", Date := 200, Author := "alice", State := "dead",
               Branches := [], Next := "1.1", Log := "second", Text := "" }),
     ("1.1", mkDelta "1.1" "alice" "first" 100 [] "")]

/-- The tag fixture: three tags on trunk revisions. -/
def tagsFile : RCSFile :=
  mkFile "1.2" [("RELEASE_1_0", "1.1"), ("RELEASE_2_0", "1.2"), ("BETA_1", "1.2")]
    [("1.2", mkDelta "1.2" "alice" "second" 200 [] "1.1"),
     ("1.1", mkDelta "1.1" "alice" "first" 100 [] "")]

/-- A file created by an import: the vendor branch symbol `VENDOR -> 1.1.1` and
a release tag on the first vendor revision. -/
def vendorFile : RCSFile :=
  mkFile "1.1" [("VENDOR", "1.1.1"), ("RELEASE_1", "1.1.1.1")]
    [("1.1", mkDelta "1.1" "alice" "initial import" 100 ["1.1.1.1"] ""),
     ("1.1.1.1", mkDelta "1.1.1.1" "alice" "initial import" 100 [] "")]

/-- A branch `FEATURE_X` with two revisions, `1.2.2.1 -> 1.2.2.2`, off revision `1.2`. -/
def branchChainFile : RCSFile :=
  mkFile "1.2" [("FEATURE_X", "1.2.2")]
    [("1.2", mkDelta "1.2" "alice" "second" 200 ["1.2.2.1"] "1.1"),
     ("1.1", mkDelta "1.1" "alice" "first" 100 [] ""),
     ("1.2.2.1", mkDelta "1.2.2.1" "bob" "on branch" 300 [] "1.2.2.2"),
     ("1.2.2.2", mkDelta "1.2.2.2" "bob" "more" 400 [] "")]

/-- A file whose head names a revision that has no delta. -/
def headlessFile : RCSFile :=
  mkFile "1.9" [("RELEASE_1_0", "1.1")] [("1.1", mkDelta "1.1" "alice" "first" 100 [] "")]

/-- A well-formed request to start a migration. -/
def cvsRequest : StartMigrationRequest :=
  { SourceType := "cvs", SourcePath := "/tmp/source", TargetPath := "/tmp/target", Options := [] }

/-- A server on port 8080 with no migration. -/
def freshServer : Server :=
  NewServer { Port := 8080, ConfigPath := "", DatabasePath := "" }

/-- The server `freshServer` after one accepted start request. -/
def oneMigrationServer : Server :=
  (handleStartMigration freshServer (some cvsRequest) "id-1" 1000).1

/-! ## Specification-side notions -/

/-- The dot-separated components of a revision id (`1.2.0.2` has the four
components `1`, `2`, `0`, `2`; the empty string has one empty component). -/
def components : List Char → List (List Char)
  | [] => [[]]
  | c :: rest =>
    if c = '.' then [] :: components rest
    else
      match components rest with
      | [] => [[c]]
      | first :: others => (c :: first) :: others

/-- The revision id `u` is non-empty and has a delta in the table. -/
def hasDelta (r : RCSFile) (u : String) : Prop :=
  u ≠ "" ∧ ∃ d, mapGet r.Deltas u = some d

/-- The revision id `v` is the `Next` of the delta of `u` or an entry of its `Branches`. -/
def Edge (r : RCSFile) (u v : String) : Prop :=
  ∃ d, mapGet r.Deltas u = some d ∧ (v = d.Next ∨ v ∈ d.Branches)

/-- A path of the revision graph: every id on it is non-empty and has a delta,
and each id is followed by the `Next` or a `Branches` entry of its delta. -/
def IsPath (r : RCSFile) (path : List String) : Prop :=
  (∀ x ∈ path, hasDelta r x) ∧ List.Chain' (Edge r) path

/-- There is a path `Head = r0, r1, ..., rk = rev` in the revision graph. -/
def Reachable (r : RCSFile) (rev : String) : Prop :=
  ∃ path, path.head? = some r.Head ∧ path.getLast? = some rev ∧ IsPath r path

/-- Paths of the revision graph from a start id, built from the front. -/
inductive Walkable (r : RCSFile) : String → String → Prop
  | refl (u : String) : hasDelta r u → Walkable r u u
  | step (u w v : String) : hasDelta r u → Edge r u w → Walkable r w v → Walkable r u v

/-- The list `path` runs along a cycle through `u`: it is a path that starts at
`u` and whose last id has an edge back to `u`. -/
def CycleAt (r : RCSFile) (u : String) (path : List String) : Prop :=
  path.head? = some u ∧ IsPath r path ∧ ∃ w, path.getLast? = some w ∧ Edge r w u

/-- The next-chain `rev, Next(rev), Next(Next(rev)), ...` as trunk commits, at most
`n` of them: it stops at the first id that is empty, was already emitted or has
no delta. -/
def nextChain (r : RCSFile) : Nat → String → List String → List Commit
  | 0, _, _ => []
  | n + 1, rev, emitted =>
    if rev = "" ∨ rev ∈ emitted then []
    else
      match mapGet r.Deltas rev with
      | none => []
      | some d =>
        { Revision := rev, Author := d.Author, Date := d.Date, Message := d.Log, Branch := "" } ::
          nextChain r n d.Next (rev :: emitted)

/-- The termination measure of the walk: the entries of the delta table whose
key is not yet in `seen`. -/
def unseenCount (r : RCSFile) (seen : List String) : Nat :=
  ((r.Deltas.map Prod.fst).filter (fun k => decide (k ∉ seen))).length

/-- What one stretch of the walk, started for the revision ids `roots` in state
`st` and ending in `st'`, has done: `seen` grew, the roots are seen, the
commits appended are new, reachable from a root and copied from their delta,
and every delta visited in the stretch is emitted with its successors seen. -/
structure WalkOK (r : RCSFile) (roots : List String) (st st' : WalkState) : Prop where
  seen_mono : st.seen ⊆ st'.seen
  roots_seen : ∀ b ∈ roots, b ≠ "" → b ∈ st'.seen
  commits_ext : ∃ new, st'.commits = st.commits ++ new ∧
    (new.map Commit.Revision).Nodup ∧
    ∀ c ∈ new, c.Revision ∉ st.seen ∧ c.Revision ∈ st'.seen ∧
      (∃ b ∈ roots, Walkable r b c.Revision) ∧
      ∃ d, mapGet r.Deltas c.Revision = some d ∧
        c.Author = d.Author ∧ c.Date = d.Date ∧ c.Message = d.Log
  closed : ∀ u ∈ st'.seen, u ∉ st.seen → ∀ d, mapGet r.Deltas u = some d →
    u ∈ st'.commits.map Commit.Revision ∧
    ∀ v, (v = d.Next ∨ v ∈ d.Branches) → v ≠ "" → v ∈ st'.seen

/-- The walk state in which `addCommit(rev, branch)` runs its two loops after it
found the delta `d`: `rev` is marked seen and its commit is appended. -/
def visitState (rev branch : String) (d : Delta) (st : WalkState) : WalkState :=
  { seen := rev :: st.seen
    commits := st.commits ++
      [{ Revision := rev, Author := d.Author, Date := d.Date,
         Message := d.Log, Branch := branch }] }

/-- One round of the `Branches` loop, `addCommit(branchRev, branchName)` with the
name found by the symbol loop, run with the full depth budget. -/
def branchStep (r : RCSFile) (branchRev : String) (st : WalkState) : Option WalkState :=
  addCommit r (r.Deltas.length + 1) branchRev (findBranchSymbol r.Symbols branchRev) st

/-- The calls `addCommit(rev, branch)` made while `GetCommits` runs, each with the
walk state at the moment of the call: the call for the head, and, for a call
that finds a delta, the call for each entry of its `Branches` (after the
entries before it were walked) and the call for its `Next` (after all of
them were walked). -/
inductive Called (r : RCSFile) : String → String → WalkState → Prop
  | head : Called r r.Head "" { seen := [], commits := [] }
  | branch (rev branch : String) (st : WalkState) (d : Delta) (pre : List String)
      (b : String) (post : List String) (s : WalkState) :
      Called r rev branch st → rev ≠ "" → rev ∉ st.seen → mapGet r.Deltas rev = some d →
      d.Branches = pre ++ b :: post →
      walkBranches (branchStep r) pre (visitState rev branch d st) = some s →
      Called r b (findBranchSymbol r.Symbols b) s
  | next (rev branch : String) (st : WalkState) (d : Delta) (s : WalkState) :
      Called r rev branch st → rev ≠ "" → rev ∉ st.seen → mapGet r.Deltas rev = some d →
      walkBranches (branchStep r) d.Branches (visitState rev branch d st) = some s →
      Called r d.Next branch s

/-- While `GetCommits` runs, the loop over the `Branches` of the delta emitted for
`rev` comes to its entry `b` with walk state `s`. -/
def AtBranchEntry (r : RCSFile) (rev b : String) (s : WalkState) : Prop :=
  ∃ branch st d pre post,
    Called r rev branch st ∧ rev ≠ "" ∧ rev ∉ st.seen ∧ mapGet r.Deltas rev = some d ∧
    d.Branches = pre ++ b :: post ∧
    walkBranches (branchStep r) pre (visitState rev branch d st) = some s

/-- The file `r` with the `State` of every delta replaced: the delta stored
under `k` gets the state `f k d`; nothing else changes. -/
def withStates (f : String → Delta → String) (r : RCSFile) : RCSFile :=
  { r with Deltas := r.Deltas.map (fun p => (p.1, { p.2 with State := f p.1 p.2 })) }

/-- The commit `c` is appended by a call `addCommit(c.Revision, c.Branch)` of the
run, made when `commits` holds exactly `before` and `c.Revision` is not yet
seen. -/
def EmittedAfter (r : RCSFile) (before : List Commit) (c : Commit) : Prop :=
  ∃ st, Called r c.Revision c.Branch st ∧ c.Revision ≠ "" ∧ c.Revision ∉ st.seen ∧
    st.commits = before

/-- The server states reached from `NewServer` by calls of the API handlers. -/
inductive ServerReachable : Server → Prop
  | init (config : ServerConfig) : ServerReachable (NewServer config)
  | step (s : Server) (req : Request) : ServerReachable s → ServerReachable (s.handle req).1

/-- The invariant of the migrations table: every entry is stored under its `ID`,
is `pending` or `stopped`, and has made no progress. -/
def TableOK (s : Server) : Prop :=
  ∀ p ∈ s.migrations, p.1 = p.2.ID ∧ (p.2.Status = "pending" ∨ p.2.Status = "stopped") ∧
    p.2.Percentage = 0 ∧ p.2.ProcessedCommits = 0

end GitMigrator

namespace GitMigrator

/-! ## Strings -/

theorem hasPrefix_iff (s p : List Char) : hasPrefix s p = true ↔ p <+: s := by
  induction s generalizing p with
  | nil => cases p <;> simp [hasPrefix]
  | cons c s ih =>
    cases p with
    | nil => simp [hasPrefix]
    | cons d p =>
      simp only [hasPrefix, List.cons_prefix_cons]
      by_cases h : c = d
      · simp [h, ih]
      · simp [h, Ne.symm h]

theorem stringsContains_iff (s sub : List Char) :
    stringsContains s sub = true ↔ sub <:+: s := by
  induction s with
  | nil => simp [stringsContains, hasPrefix_iff]
  | cons c s ih =>
    simp only [stringsContains, Bool.or_eq_true, hasPrefix_iff, ih]
    exact List.infix_cons_iff.symm

theorem countDots_eq (l : List Char) (n : Nat) : countDots l n = n + l.count '.' := by
  induction l generalizing n with
  | nil => simp [countDots]
  | cons c l ih =>
    by_cases h : c = '.'
    · subst h
      simp [countDots, ih]
      omega
    · simp [countDots, h, ih, List.count_cons]

theorem components_length (l : List Char) : (components l).length = l.count '.' + 1 := by
  induction l with
  | nil => simp [components]
  | cons c l ih =>
    by_cases h : c = '.'
    · subst h
      simp [components, ih]
    · have hne : components l ≠ [] := by
        intro h0
        rw [h0] at ih
        simp at ih
      simp only [components, h, if_false]
      cases hc : components l with
      | nil => exact absurd hc hne
      | cons first others =>
        rw [hc] at ih
        simp [List.count_cons, h] at ih ⊢
        omega

/-! ## Branch numbers -/

/-- C1 fails on the code at the specification's own fixture: with
`FEATURE_X -> 1.2.0.2` the raw prefix test rejects the branch head `1.2.2.1`
(`isBranchPrefix "1.2.0.2" "1.2.2.1"` is false), so the commit for
`1.2.2.1` is emitted with the empty branch name instead of `FEATURE_X`. -/
theorem GetCommits_magic_branch_unresolved :
    isBranchPrefix "1.2.0.2" "1.2.2.1" = false ∧
    findBranchSymbol featureFile.Symbols "1.2.2.1" = "" ∧
    (GetCommits featureFile).map (fun c => (c.Revision, c.Branch)) =
      [("1.2", ""), ("1.2.2.1", ""), ("1.1", "")] := by
  refine ⟨by decide, by decide, by decide⟩

theorem isBranchNumber_spec (rev : String) :
    isBranchNumber rev = true ↔ ".0.".data <:+: rev.data ∨ 3 ≤ rev.data.count '.' := by
  unfold isBranchNumber
  by_cases h : stringsContains rev.data ".0.".data = true
  · simp only [h, if_true, true_iff]
    exact Or.inl ((stringsContains_iff _ _).1 h)
  · have h2 : ¬ (".0.".data <:+: rev.data) := fun hc => h ((stringsContains_iff _ _).2 hc)
    simp only [h, countDots_eq]
    simp [h2]

/-- C2: `isBranchNumber rev` is true if and only if `rev` contains the substring
`.0.` or contains at least three `.` characters; being a function on strings it
is total and depends on the string alone. -/
theorem isBranchNumber_contains_or_three_dots (rev : String) :
    isBranchNumber rev = true ↔ ".0.".data <:+: rev.data ∨ 3 ≤ rev.data.count '.' :=
  isBranchNumber_spec rev

/-- C3 as stated fails: `1.2.2.1` has four components (an even number) and no
`.0.`, yet `isBranchNumber` classifies it as a branch number. -/
theorem isBranchNumber_even_components :
    isBranchNumber "1.2.2.1" = true ∧
    (components "1.2.2.1".data).length = 4 ∧
    stringsContains "1.2.2.1".data ".0.".data = false ∧
    ¬ (isBranchNumber "1.2.2.1" = true ↔
        (Odd (components "1.2.2.1".data).length ∧ 4 ≤ (components "1.2.2.1".data).length) ∨
          ".0.".data <:+: "1.2.2.1".data) := by
  have h1 : isBranchNumber "1.2.2.1" = true := by decide
  have h2 : (components "1.2.2.1".data).length = 4 := by decide
  have h3 : stringsContains "1.2.2.1".data ".0.".data = false := by decide
  refine ⟨h1, h2, h3, ?_⟩
  intro hiff
  rcases hiff.1 h1 with ⟨hodd, _⟩ | hinf
  · rw [h2] at hodd
    exact absurd hodd (by decide)
  · have := (stringsContains_iff _ _).2 hinf
    rw [h3] at this
    exact absurd this (by decide)

/-- C3 amended: `isBranchNumber rev` is true exactly when `rev` has at least four
dot-separated components, whether their number is odd or even, or contains `.0.`. -/
theorem isBranchNumber_four_components (rev : String) :
    isBranchNumber rev = true ↔
      4 ≤ (components rev.data).length ∨ ".0.".data <:+: rev.data := by
  rw [isBranchNumber_spec, components_length]
  constructor
  · rintro (h | h)
    · exact Or.inr h
    · exact Or.inl (by omega)
  · rintro (h | h)
    · exact Or.inr (by omega)
    · exact Or.inl h

/-! ## The walk invariant -/

theorem WalkOK.nil (r : RCSFile) (st : WalkState) : WalkOK r [] st st where
  seen_mono := List.Subset.refl _
  roots_seen := by simp
  commits_ext := ⟨[], by simp⟩
  closed := fun u hu hnu => absurd hu hnu

theorem WalkOK.skip (r : RCSFile) (rev : String) (st : WalkState)
    (h : rev = "" ∨ rev ∈ st.seen) : WalkOK r [rev] st st where
  seen_mono := List.Subset.refl _
  roots_seen := by
    intro b hb hne
    rw [List.mem_singleton] at hb
    subst hb
    rcases h with h | h
    · exact absurd h hne
    · exact h
  commits_ext := ⟨[], by simp⟩
  closed := fun u hu hnu => absurd hu hnu

theorem WalkOK.missing (r : RCSFile) (rev : String) (st : WalkState)
    (hd : mapGet r.Deltas rev = none) :
    WalkOK r [rev] st { seen := rev :: st.seen, commits := st.commits } where
  seen_mono := List.subset_cons_self _ _
  roots_seen := by
    intro b hb _
    rw [List.mem_singleton] at hb
    subst hb
    exact List.mem_cons_self _ _
  commits_ext := ⟨[], by simp⟩
  closed := by
    intro u hu hnu d hdu
    have : u = rev := by
      rcases List.mem_cons.1 hu with h | h
      · exact h
      · exact absurd h hnu
    subst this
    rw [hd] at hdu
    cases hdu

theorem WalkOK.append {r : RCSFile} {R1 R2 : List String} {st st1 st2 : WalkState}
    (h1 : WalkOK r R1 st st1) (h2 : WalkOK r R2 st1 st2) : WalkOK r (R1 ++ R2) st st2 where
  seen_mono := fun _ hx => h2.seen_mono (h1.seen_mono hx)
  roots_seen := by
    intro b hb hne
    rcases List.mem_append.1 hb with hb | hb
    · exact h2.seen_mono (h1.roots_seen b hb hne)
    · exact h2.roots_seen b hb hne
  commits_ext := by
    obtain ⟨n1, e1, nd1, p1⟩ := h1.commits_ext
    obtain ⟨n2, e2, nd2, p2⟩ := h2.commits_ext
    refine ⟨n1 ++ n2, by rw [e2, e1, List.append_assoc], ?_, ?_⟩
    · rw [List.map_append]
      refine List.Nodup.append nd1 nd2 ?_
      intro x hx1 hx2
      obtain ⟨c1, hc1, rfl⟩ := List.mem_map.1 hx1
      obtain ⟨c2, hc2, hEq⟩ := List.mem_map.1 hx2
      have := (p2 c2 hc2).1
      rw [hEq] at this
      exact this (p1 c1 hc1).2.1
    · intro c hc
      rcases List.mem_append.1 hc with hc | hc
      · obtain ⟨a, b, ⟨root, hroot, hw⟩, d⟩ := p1 c hc
        exact ⟨a, h2.seen_mono b, ⟨root, List.mem_append_left _ hroot, hw⟩, d⟩
      · obtain ⟨a, b, ⟨root, hroot, hw⟩, d⟩ := p2 c hc
        exact ⟨fun hx => a (h1.seen_mono hx), b,
          ⟨root, List.mem_append_right _ hroot, hw⟩, d⟩
  closed := by
    intro u hu hnu d hdu
    by_cases hmid : u ∈ st1.seen
    · obtain ⟨hc, hs⟩ := h1.closed u hmid hnu d hdu
      obtain ⟨n2, e2, _, _⟩ := h2.commits_ext
      refine ⟨?_, fun v hv hne => h2.seen_mono (hs v hv hne)⟩
      rw [e2, List.map_append]
      exact List.mem_append_left _ hc
    · exact h2.closed u hu hmid d hdu

theorem WalkOK.visit {r : RCSFile} {rev branch : String} {st st3 : WalkState} {d : Delta}
    (hne : rev ≠ "") (hns : rev ∉ st.seen) (hd : mapGet r.Deltas rev = some d)
    (h : WalkOK r (d.Branches ++ [d.Next])
      { seen := rev :: st.seen
        commits := st.commits ++
          [{ Revision := rev, Author := d.Author, Date := d.Date,
             Message := d.Log, Branch := branch }] } st3) :
    WalkOK r [rev] st st3 where
  seen_mono := fun _ hx => h.seen_mono (List.mem_cons_of_mem _ hx)
  roots_seen := by
    intro b hb _
    rw [List.mem_singleton] at hb
    subst hb
    exact h.seen_mono (List.mem_cons_self _ _)
  commits_ext := by
    obtain ⟨n, e, nd, p⟩ := h.commits_ext
    have hrev : hasDelta r rev := ⟨hne, d, hd⟩
    refine ⟨{ Revision := rev, Author := d.Author, Date := d.Date,
              Message := d.Log, Branch := branch } :: n, ?_, ?_, ?_⟩
    · rw [e]
      simp
    · rw [List.map_cons, List.nodup_cons]
      refine ⟨?_, nd⟩
      intro hx
      obtain ⟨c, hc, hEq⟩ := List.mem_map.1 hx
      have := (p c hc).1
      rw [hEq] at this
      exact this (List.mem_cons_self _ _)
    · intro c hc
      rcases List.mem_cons.1 hc with hc | hc
      · subst hc
        exact ⟨hns, h.seen_mono (List.mem_cons_self _ _),
          ⟨rev, List.mem_singleton_self _, Walkable.refl rev hrev⟩, d, hd, rfl, rfl, rfl⟩
      · obtain ⟨a, b, ⟨root, hroot, hw⟩, dd⟩ := p c hc
        refine ⟨fun hx => a (List.mem_cons_of_mem _ hx), b,
          ⟨rev, List.mem_singleton_self _, ?_⟩, dd⟩
        refine Walkable.step rev root _ hrev ⟨d, hd, ?_⟩ hw
        rcases List.mem_append.1 hroot with hroot | hroot
        · exact Or.inr hroot
        · exact Or.inl (List.mem_singleton.1 hroot)
  closed := by
    intro u hu hnu dd hdu
    by_cases hur : u = rev
    · subst hur
      rw [hd] at hdu
      cases hdu
      obtain ⟨n, e, _, _⟩ := h.commits_ext
      refine ⟨?_, ?_⟩
      · rw [e]
        simp
      · intro v hv hvne
        refine h.roots_seen v ?_ hvne
        rcases hv with hv | hv
        · exact List.mem_append_right _ (List.mem_singleton.2 hv)
        · exact List.mem_append_left _ hv
    · refine h.closed u hu ?_ dd hdu
      intro hx
      rcases List.mem_cons.1 hx with hx | hx
      · exact hur hx
      · exact hnu hx

theorem walkBranches_ok (r : RCSFile) (step : String → WalkState → Option WalkState)
    (hstep : ∀ b s s', step b s = some s' → WalkOK r [b] s s')
    (bs : List String) (s s' : WalkState) (h : walkBranches step bs s = some s') :
    WalkOK r bs s s' := by
  induction bs generalizing s with
  | nil =>
    simp only [walkBranches, Option.some.injEq] at h
    subst h
    exact WalkOK.nil r s
  | cons b bs ih =>
    simp only [walkBranches] at h
    cases hb : step b s with
    | none => rw [hb] at h; cases h
    | some s1 =>
      rw [hb] at h
      exact WalkOK.append (hstep b s s1 hb) (ih s1 h)

theorem addCommit_ok (r : RCSFile) (fuel : Nat) (rev branch : String) (st st' : WalkState)
    (h : addCommit r fuel rev branch st = some st') : WalkOK r [rev] st st' := by
  induction fuel generalizing rev branch st st' with
  | zero => simp [addCommit] at h
  | succ fuel ih =>
    unfold addCommit at h
    by_cases hstop : rev = "" ∨ rev ∈ st.seen
    · rw [if_pos hstop] at h
      cases h
      exact WalkOK.skip r rev st hstop
    · rw [if_neg hstop] at h
      have hne : rev ≠ "" := fun hx => hstop (Or.inl hx)
      have hns : rev ∉ st.seen := fun hx => hstop (Or.inr hx)
      cases hd : mapGet r.Deltas rev with
      | none =>
        rw [hd] at h
        cases h
        exact WalkOK.missing r rev st hd
      | some d =>
        rw [hd] at h
        simp only at h
        cases hb : walkBranches
            (fun branchRev => addCommit r fuel branchRev (findBranchSymbol r.Symbols branchRev))
            d.Branches
            { seen := rev :: st.seen
              commits := st.commits ++
                [{ Revision := rev, Author := d.Author, Date := d.Date,
                   Message := d.Log, Branch := branch }] } with
        | none => rw [hb] at h; cases h
        | some s2 =>
          rw [hb] at h
          have h1 := walkBranches_ok r _ (fun b s s' hs => ih b _ s s' hs) d.Branches _ s2 hb
          have h2 := ih d.Next branch s2 st' h
          exact WalkOK.visit hne hns hd (WalkOK.append h1 h2)

/-! ## Termination: the depth budget is sufficient -/

theorem mapGet_some_mem {β : Type} (l : List (String × β)) (k : String) (v : β)
    (h : mapGet l k = some v) : (k, v) ∈ l := by
  induction l with
  | nil => simp [mapGet] at h
  | cons kv l ih =>
    obtain ⟨k0, v0⟩ := kv
    simp only [mapGet] at h
    by_cases hk : k0 = k
    · rw [if_pos hk] at h
      cases h
      subst hk
      exact List.mem_cons_self _ _
    · rw [if_neg hk] at h
      exact List.mem_cons_of_mem _ (ih h)

theorem mapGet_some_key {β : Type} (l : List (String × β)) (k : String) (v : β)
    (h : mapGet l k = some v) : k ∈ l.map Prod.fst :=
  List.mem_map.2 ⟨(k, v), mapGet_some_mem l k v h, rfl⟩

theorem unseen_filter_mono (ks seen seen' : List String) (h : seen ⊆ seen') :
    (ks.filter (fun k => decide (k ∉ seen'))).length ≤
      (ks.filter (fun k => decide (k ∉ seen))).length := by
  induction ks with
  | nil => simp
  | cons k ks ih =>
    by_cases h1 : k ∈ seen
    · have h2 : k ∈ seen' := h h1
      simpa [List.filter_cons, h1, h2] using ih
    · by_cases h2 : k ∈ seen'
      · simp only [List.filter_cons, h1, h2, not_true_eq_false, not_false_eq_true,
          decide_True, decide_False, if_true, List.length_cons]
        simp only [Bool.false_eq_true, if_false]
        omega
      · simpa [List.filter_cons, h1, h2] using ih

theorem unseen_filter_lt (ks seen : List String) (rev : String) (hin : rev ∈ ks)
    (hns : rev ∉ seen) :
    (ks.filter (fun k => decide (k ∉ rev :: seen))).length <
      (ks.filter (fun k => decide (k ∉ seen))).length := by
  induction ks with
  | nil => cases hin
  | cons k ks ih =>
    have hmono := unseen_filter_mono ks seen (rev :: seen) (List.subset_cons_self _ _)
    by_cases hk : k = rev
    · subst hk
      have e1 : decide (k ∉ k :: seen) = false := by simp
      have e2 : decide (k ∉ seen) = true := by simp [hns]
      simp only [List.filter_cons, e1, e2, if_true, List.length_cons, Bool.false_eq_true,
        if_false]
      omega
    · have hin' : rev ∈ ks := by
        rcases List.mem_cons.1 hin with h | h
        · exact absurd h.symm hk
        · exact h
      have := ih hin'
      by_cases h1 : k ∈ seen
      · simpa [List.filter_cons, h1, hk] using this
      · simpa [List.filter_cons, h1, hk] using this

theorem unseenCount_mono (r : RCSFile) (seen seen' : List String) (h : seen ⊆ seen') :
    unseenCount r seen' ≤ unseenCount r seen :=
  unseen_filter_mono _ seen seen' h

theorem unseenCount_lt (r : RCSFile) (seen : List String) (rev : String) (d : Delta)
    (hd : mapGet r.Deltas rev = some d) (hns : rev ∉ seen) :
    unseenCount r (rev :: seen) < unseenCount r seen :=
  unseen_filter_lt _ seen rev (mapGet_some_key _ _ _ hd) hns

theorem unseenCount_nil (r : RCSFile) : unseenCount r [] = r.Deltas.length := by
  simp [unseenCount]

theorem walkBranches_total (r : RCSFile) (fuel : Nat)
    (step : String → WalkState → Option WalkState)
    (hok : ∀ b s s', step b s = some s' → WalkOK r [b] s s')
    (htot : ∀ b s, unseenCount r s.seen < fuel → ∃ s', step b s = some s')
    (bs : List String) (s : WalkState) (h : unseenCount r s.seen < fuel) :
    ∃ s', walkBranches step bs s = some s' := by
  induction bs generalizing s with
  | nil => exact ⟨s, rfl⟩
  | cons b bs ih =>
    obtain ⟨s1, h1⟩ := htot b s h
    have hm := unseenCount_mono r _ _ (hok b s s1 h1).seen_mono
    obtain ⟨s2, h2⟩ := ih s1 (by omega)
    exact ⟨s2, by simp [walkBranches, h1, h2]⟩

theorem addCommit_total (r : RCSFile) (fuel : Nat) (rev branch : String) (st : WalkState)
    (h : unseenCount r st.seen < fuel) : ∃ st', addCommit r fuel rev branch st = some st' := by
  induction fuel generalizing rev branch st with
  | zero => omega
  | succ fuel ih =>
    unfold addCommit
    by_cases hstop : rev = "" ∨ rev ∈ st.seen
    · exact ⟨st, by rw [if_pos hstop]⟩
    · rw [if_neg hstop]
      have hns : rev ∉ st.seen := fun hx => hstop (Or.inr hx)
      cases hd : mapGet r.Deltas rev with
      | none => exact ⟨_, rfl⟩
      | some d =>
        simp only
        have hlt := unseenCount_lt r st.seen rev d hd hns
        obtain ⟨s2, h2⟩ := walkBranches_total r fuel
          (fun branchRev => addCommit r fuel branchRev (findBranchSymbol r.Symbols branchRev))
          (fun b s s' hs => addCommit_ok r fuel b _ s s' hs)
          (fun b s hs => ih b _ s hs) d.Branches
          { seen := rev :: st.seen
            commits := st.commits ++
              [{ Revision := rev, Author := d.Author, Date := d.Date,
                 Message := d.Log, Branch := branch }] } (by simp only; omega)
        have hm := unseenCount_mono r _ _
          (walkBranches_ok r _ (fun b s s' hs => addCommit_ok r fuel b _ s s' hs)
            d.Branches _ s2 h2).seen_mono
        simp only at hm
        obtain ⟨s3, h3⟩ := ih d.Next branch s2 (by omega)
        exact ⟨s3, by rw [h2]; exact h3⟩

theorem walkBranches_congr (step1 step2 : String → WalkState → Option WalkState)
    (hstep : ∀ b s s', step1 b s = some s' → step2 b s = some s')
    (bs : List String) (s s' : WalkState) (h : walkBranches step1 bs s = some s') :
    walkBranches step2 bs s = some s' := by
  induction bs generalizing s with
  | nil => simpa [walkBranches] using h
  | cons b bs ih =>
    simp only [walkBranches] at h ⊢
    cases hb : step1 b s with
    | none => rw [hb] at h; cases h
    | some s1 =>
      rw [hb] at h
      rw [hstep b s s1 hb]
      exact ih s1 h

theorem addCommit_fuel_succ (r : RCSFile) (fuel : Nat) (rev branch : String)
    (st st' : WalkState) (h : addCommit r fuel rev branch st = some st') :
    addCommit r (fuel + 1) rev branch st = some st' := by
  induction fuel generalizing rev branch st st' with
  | zero => simp [addCommit] at h
  | succ fuel ih =>
    unfold addCommit at h ⊢
    by_cases hstop : rev = "" ∨ rev ∈ st.seen
    · rw [if_pos hstop] at h ⊢
      exact h
    · rw [if_neg hstop] at h ⊢
      cases hd : mapGet r.Deltas rev with
      | none => rw [hd] at h; exact h
      | some d =>
        rw [hd] at h
        simp only at h ⊢
        cases hb : walkBranches
            (fun branchRev => addCommit r fuel branchRev (findBranchSymbol r.Symbols branchRev))
            d.Branches
            { seen := rev :: st.seen
              commits := st.commits ++
                [{ Revision := rev, Author := d.Author, Date := d.Date,
                   Message := d.Log, Branch := branch }] } with
        | none => rw [hb] at h; cases h
        | some s2 =>
          rw [hb] at h
          rw [walkBranches_congr _ _ (fun b s s' hs => ih b _ s s' hs) d.Branches _ s2 hb]
          exact ih d.Next branch s2 st' h

theorem addCommit_fuel_le (r : RCSFile) (fuel fuel' : Nat) (hle : fuel ≤ fuel')
    (rev branch : String) (st st' : WalkState) (h : addCommit r fuel rev branch st = some st') :
    addCommit r fuel' rev branch st = some st' := by
  induction fuel' with
  | zero =>
    have : fuel = 0 := by omega
    subst this
    exact h
  | succ n ih =>
    by_cases hEq : fuel = n + 1
    · subst hEq
      exact h
    · exact addCommit_fuel_succ r n rev branch st st' (ih (by omega))

theorem GetCommitsFuel_eq (r : RCSFile) (fuel : Nat) (h : r.Deltas.length < fuel) :
    GetCommitsFuel r fuel = some (GetCommits r) := by
  obtain ⟨s, hs⟩ := addCommit_total r (r.Deltas.length + 1) r.Head ""
    { seen := [], commits := [] } (by rw [unseenCount_nil]; omega)
  have hs' := addCommit_fuel_le r _ fuel (by omega) r.Head "" _ s hs
  simp [GetCommits, GetCommitsFuel, hs, hs']

theorem GetCommits_walk (r : RCSFile) :
    ∃ st',
      addCommit r (r.Deltas.length + 1) r.Head "" { seen := [], commits := [] } = some st' ∧
      st'.commits = GetCommits r ∧ WalkOK r [r.Head] { seen := [], commits := [] } st' := by
  obtain ⟨s, hs⟩ := addCommit_total r (r.Deltas.length + 1) r.Head ""
    { seen := [], commits := [] } (by rw [unseenCount_nil]; omega)
  refine ⟨s, hs, ?_, addCommit_ok r _ _ _ _ _ hs⟩
  simp [GetCommits, GetCommitsFuel, hs]

/-! ## Paths of the revision graph -/

theorem walkable_path (r : RCSFile) (u v : String) (h : Walkable r u v) :
    ∃ path, path.head? = some u ∧ path.getLast? = some v ∧ IsPath r path := by
  induction h with
  | refl u hu =>
    refine ⟨[u], rfl, rfl, ?_, List.chain'_singleton u⟩
    intro x hx
    rw [List.mem_singleton] at hx
    subst hx
    exact hu
  | step u w v hu he _ ih =>
    obtain ⟨path, hh, hl, hv, hc⟩ := ih
    cases path with
    | nil => simp at hh
    | cons w0 rest =>
      simp only [List.head?_cons, Option.some.injEq] at hh
      subst hh
      refine ⟨u :: w0 :: rest, rfl, ?_, ?_, ?_⟩
      · rw [List.getLast?_cons_cons]
        exact hl
      · intro x hx
        rcases List.mem_cons.1 hx with hx | hx
        · subst hx
          exact hu
        · exact hv x hx
      · exact List.chain'_cons.2 ⟨he, hc⟩

theorem path_emitted (r : RCSFile) (st' : WalkState)
    (hw : WalkOK r [r.Head] { seen := [], commits := [] } st')
    (path : List String) (hp : IsPath r path) (u v : String)
    (hh : path.head? = some u) (hu : u ∈ st'.seen) (hl : path.getLast? = some v) :
    v ∈ st'.commits.map Commit.Revision := by
  induction path generalizing u with
  | nil => simp at hh
  | cons x rest ih =>
    simp only [List.head?_cons, Option.some.injEq] at hh
    subst hh
    obtain ⟨hv, hc⟩ := hp
    obtain ⟨_, d, hd⟩ := hv x (List.mem_cons_self _ _)
    obtain ⟨hemit, hsucc⟩ := hw.closed x hu (by simp) d hd
    cases rest with
    | nil =>
      simp only [List.getLast?_singleton, Option.some.injEq] at hl
      subst hl
      exact hemit
    | cons w rest' =>
      rw [List.getLast?_cons_cons] at hl
      obtain ⟨he, hc'⟩ := List.chain'_cons.1 hc
      obtain ⟨d', hd', hedge⟩ := he
      rw [hd] at hd'
      cases hd'
      have hwne : w ≠ "" := (hv w (by simp)).1
      have hws : w ∈ st'.seen := hsucc w hedge hwne
      exact ih ⟨fun y hy => hv y (List.mem_cons_of_mem _ hy), hc'⟩ w rfl hws hl

theorem path_all_emitted (r : RCSFile) (st' : WalkState)
    (hw : WalkOK r [r.Head] { seen := [], commits := [] } st')
    (path : List String) (hp : IsPath r path) (u : String)
    (hh : path.head? = some u) (hu : u ∈ st'.seen) :
    ∀ x ∈ path, x ∈ st'.commits.map Commit.Revision := by
  induction path generalizing u with
  | nil => simp
  | cons y rest ih =>
    simp only [List.head?_cons, Option.some.injEq] at hh
    subst hh
    obtain ⟨hv, hc⟩ := hp
    obtain ⟨_, d, hd⟩ := hv y (List.mem_cons_self _ _)
    obtain ⟨hemit, hsucc⟩ := hw.closed y hu (by simp) d hd
    intro x hx
    rcases List.mem_cons.1 hx with hx | hx
    · rw [hx]
      exact hemit
    · cases rest with
      | nil => cases hx
      | cons w rest' =>
        obtain ⟨he, hc'⟩ := List.chain'_cons.1 hc
        obtain ⟨d', hd', hedge⟩ := he
        rw [hd] at hd'
        cases hd'
        have hwne : w ≠ "" := (hv w (by simp)).1
        exact ih ⟨fun z hz => hv z (List.mem_cons_of_mem _ hz), hc'⟩ w rfl
          (hsucc w hedge hwne) x hx

theorem GetCommits_mem_iff (r : RCSFile) (rev : String) :
    rev ∈ (GetCommits r).map Commit.Revision ↔ Reachable r rev := by
  obtain ⟨st', _, hcs, hw⟩ := GetCommits_walk r
  constructor
  · intro h
    obtain ⟨new, e, _, p⟩ := hw.commits_ext
    rw [← hcs, e] at h
    simp only [List.nil_append] at h
    obtain ⟨c, hc, rfl⟩ := List.mem_map.1 h
    obtain ⟨_, _, ⟨b, hb, hwalk⟩, _⟩ := p c hc
    rw [List.mem_singleton] at hb
    subst hb
    exact walkable_path r _ _ hwalk
  · rintro ⟨path, hh, hl, hp⟩
    rw [← hcs]
    have hne : r.Head ≠ "" := by
      cases path with
      | nil => simp at hh
      | cons x rest =>
        simp only [List.head?_cons, Option.some.injEq] at hh
        subst hh
        exact (hp.1 _ (List.mem_cons_self _ _)).1
    exact path_emitted r st' hw path hp r.Head rev hh
      (hw.roots_seen r.Head (List.mem_singleton_self _) hne) hl

theorem GetCommits_nodup_revisions (r : RCSFile) :
    ((GetCommits r).map Commit.Revision).Nodup := by
  obtain ⟨st', _, hcs, hw⟩ := GetCommits_walk r
  obtain ⟨new, e, nd, _⟩ := hw.commits_ext
  rw [← hcs, e]
  simpa using nd

theorem GetCommits_from_delta (r : RCSFile) (c : Commit) (h : c ∈ GetCommits r) :
    ∃ d, mapGet r.Deltas c.Revision = some d ∧
      c.Author = d.Author ∧ c.Date = d.Date ∧ c.Message = d.Log := by
  obtain ⟨st', _, hcs, hw⟩ := GetCommits_walk r
  obtain ⟨new, e, _, p⟩ := hw.commits_ext
  rw [← hcs, e] at h
  simp only [List.nil_append] at h
  exact (p c h).2.2.2

/-! ## The next-chain of a file without branches -/

theorem addCommit_chain (r : RCSFile) (hB : ∀ p ∈ r.Deltas, p.2.Branches = [])
    (fuel : Nat) (rev : String) (st st' : WalkState)
    (h : addCommit r fuel rev "" st = some st') :
    st'.commits = st.commits ++ nextChain r fuel rev st.seen := by
  induction fuel generalizing rev st st' with
  | zero => simp [addCommit] at h
  | succ fuel ih =>
    unfold addCommit at h
    unfold nextChain
    by_cases hstop : rev = "" ∨ rev ∈ st.seen
    · rw [if_pos hstop] at h ⊢
      cases h
      simp
    · rw [if_neg hstop] at h ⊢
      cases hd : mapGet r.Deltas rev with
      | none =>
        rw [hd] at h
        cases h
        simp
      | some d =>
        rw [hd] at h
        have hbr : d.Branches = [] := hB (rev, d) (mapGet_some_mem _ _ _ hd)
        simp only [hbr, walkBranches, Option.some_bind] at h
        rw [ih d.Next _ st' h]
        simp

theorem nextChain_trunk (r : RCSFile) (n : Nat) (rev : String) (emitted : List String) :
    ∀ c ∈ nextChain r n rev emitted, c.Branch = "" := by
  induction n generalizing rev emitted with
  | zero => simp [nextChain]
  | succ n ih =>
    unfold nextChain
    by_cases hstop : rev = "" ∨ rev ∈ emitted
    · rw [if_pos hstop]
      simp
    · rw [if_neg hstop]
      cases hd : mapGet r.Deltas rev with
      | none => simp
      | some d =>
        intro c hc
        rcases List.mem_cons.1 hc with hc | hc
        · rw [hc]
        · exact ih _ _ c hc

/-! ## The claims about GetCommits -/

/-- C4: `GetCommits` terminates on every RCS file, cyclic or self-referencing
ones included: every depth budget above the size of the delta table yields the
same commit list; a call that visits a delta puts a new key into `seen`, which
strictly lowers the number of unseen table entries, and from any state a budget
of one more than that number is enough for `addCommit` to return. -/
theorem GetCommits_terminates (r : RCSFile) (fuel : Nat) (h : r.Deltas.length < fuel) :
    GetCommitsFuel r fuel = some (GetCommits r) ∧
    (∀ (rev : String) (st : WalkState) (d : Delta),
      rev ∉ st.seen → mapGet r.Deltas rev = some d →
        unseenCount r (rev :: st.seen) < unseenCount r st.seen) ∧
    ∀ (rev branch : String) (st : WalkState), ∃ st',
      addCommit r (unseenCount r st.seen + 1) rev branch st = some st' ∧
        st.seen ⊆ st'.seen := by
  refine ⟨GetCommitsFuel_eq r fuel h, ?_, ?_⟩
  · intro rev st d hns hd
    exact unseenCount_lt r st.seen rev d hd hns
  · intro rev branch st
    obtain ⟨st', hs⟩ := addCommit_total r (unseenCount r st.seen + 1) rev branch st
      (Nat.lt_succ_self _)
    exact ⟨st', hs, (addCommit_ok r _ _ _ _ _ hs).seen_mono⟩

/-- Witness of C4 on the file whose only delta points at itself. -/
theorem GetCommits_terminates_witness :
    selfLoopFile.Deltas.length < 2 ∧
    GetCommitsFuel selfLoopFile 2 = some (GetCommits selfLoopFile) :=
  ⟨by decide, (GetCommits_terminates selfLoopFile 2 (by decide)).1⟩

theorem cycleFile_reachable : Reachable cycleFile "1.2" := by
  refine ⟨["1.2"], rfl, rfl, ?_, List.chain'_singleton _⟩
  intro x hx
  rw [List.mem_singleton] at hx
  subst hx
  exact ⟨by decide, _, rfl⟩

theorem cycleFile_cycle : CycleAt cycleFile "1.2" ["1.2", "1.1"] := by
  refine ⟨rfl, ⟨?_, ?_⟩, "1.1", rfl, ⟨_, rfl, Or.inl rfl⟩⟩
  · intro x hx
    simp only [List.mem_cons, List.mem_singleton, List.not_mem_nil, or_false] at hx
    rcases hx with hx | hx
    · subst hx
      exact ⟨by decide, _, rfl⟩
    · subst hx
      exact ⟨by decide, _, rfl⟩
  · exact List.chain'_cons.2 ⟨⟨_, rfl, Or.inl rfl⟩, List.chain'_singleton _⟩

/-- C5 as stated fails: `cycleFile` has the cycle `1.2 -> 1.1 -> 1.2` through its
head, and `GetCommits` returns a two-element commit list for it, the very list it
returns for the well-formed `cutFile`; no error is reported. -/
theorem GetCommits_cycle_returns_list :
    Reachable cycleFile "1.2" ∧ CycleAt cycleFile "1.2" ["1.2", "1.1"] ∧
    GetCommits cycleFile =
      [{ Revision := "1.2", Author := "alice", Date := 200, Message := "second", Branch := "" },
       { Revision := "1.1", Author := "alice", Date := 100, Message := "first", Branch := "" }] ∧
    GetCommits cycleFile = GetCommits cutFile :=
  ⟨cycleFile_reachable, cycleFile_cycle, by decide, by decide⟩

/-- C5 amended: on a file with a cycle reachable from the head `GetCommits` does
not loop: with any depth budget above the size of the delta table it returns a
commit list, without an error, and every revision on the cycle occurs in that
list exactly once. -/
theorem GetCommits_cycle_once (r : RCSFile) (u : String) (path : List String)
    (hr : Reachable r u) (hc : CycleAt r u path) :
    (∀ fuel, r.Deltas.length < fuel → GetCommitsFuel r fuel = some (GetCommits r)) ∧
    ∀ x ∈ path, ((GetCommits r).map Commit.Revision).count x = 1 := by
  refine ⟨fun fuel h => GetCommitsFuel_eq r fuel h, ?_⟩
  intro x hx
  refine List.count_eq_one_of_mem (GetCommits_nodup_revisions r) ?_
  obtain ⟨st', _, hcs, hw⟩ := GetCommits_walk r
  have hu : u ∈ st'.seen := by
    have hmem := (GetCommits_mem_iff r u).2 hr
    obtain ⟨new, e, _, p⟩ := hw.commits_ext
    rw [← hcs, e] at hmem
    simp only [List.nil_append] at hmem
    obtain ⟨c, hcm, hrev⟩ := List.mem_map.1 hmem
    rw [← hrev]
    exact (p c hcm).2.1
  rw [← hcs]
  exact path_all_emitted r st' hw path hc.2.1 u hc.1 hu x hx

/-- Witness of the amended C5 on `cycleFile`, along its cycle `1.2 -> 1.1 -> 1.2`. -/
theorem GetCommits_cycle_once_witness :
    (∀ fuel, cycleFile.Deltas.length < fuel →
      GetCommitsFuel cycleFile fuel = some (GetCommits cycleFile)) ∧
    ∀ x ∈ ["1.2", "1.1"], ((GetCommits cycleFile).map Commit.Revision).count x = 1 :=
  GetCommits_cycle_once cycleFile "1.2" ["1.2", "1.1"] cycleFile_reachable cycleFile_cycle

/-- C6 as stated fails: in `danglingFile` the `next` of the head `1.2` names the
non-empty id `1.1`, which has no delta; `GetCommits` returns the one-commit list
it returns for `singleFile`, where the pointer is empty, and reports nothing. -/
theorem GetCommits_dangling_truncated :
    danglingFile.Head = "1.2" ∧
    (∃ d, mapGet danglingFile.Deltas "1.2" = some d ∧ d.Next = "1.1") ∧
    "1.1" ≠ "" ∧ mapGet danglingFile.Deltas "1.1" = none ∧
    GetCommits danglingFile =
      [{ Revision := "1.2", Author := "alice", Date := 200, Message := "second", Branch := "" }] ∧
    GetCommits danglingFile = GetCommits singleFile :=
  ⟨rfl, ⟨_, rfl, rfl⟩, by decide, by decide, by decide, by decide⟩

/-- C6 amended: a non-empty revision id that has no delta is skipped silently:
the call of `addCommit` for it returns at once with the commit list unchanged,
the id does not occur in the output of `GetCommits`, and when it is the head the
output is empty; no error is reported. -/
theorem addCommit_missing_delta_skipped (r : RCSFile) (rev : String) (hne : rev ≠ "")
    (hd : mapGet r.Deltas rev = none) :
    (∀ (fuel : Nat) (branch : String) (st : WalkState), ∃ st',
      addCommit r (fuel + 1) rev branch st = some st' ∧ st'.commits = st.commits) ∧
    rev ∉ (GetCommits r).map Commit.Revision ∧
    (r.Head = rev → GetCommits r = []) := by
  refine ⟨?_, ?_, ?_⟩
  · intro fuel branch st
    unfold addCommit
    by_cases hstop : rev = "" ∨ rev ∈ st.seen
    · exact ⟨st, by rw [if_pos hstop], rfl⟩
    · rw [if_neg hstop, hd]
      exact ⟨_, rfl, rfl⟩
  · intro hmem
    obtain ⟨c, hc, hrev⟩ := List.mem_map.1 hmem
    obtain ⟨d, hdc, _⟩ := GetCommits_from_delta r c hc
    rw [hrev, hd] at hdc
    cases hdc
  · intro hhead
    unfold GetCommits GetCommitsFuel addCommit
    rw [hhead, hd]
    simp [hne]

/-- Witness of the amended C6 on `danglingFile`, at the missing id `1.1`. -/
theorem addCommit_missing_delta_skipped_witness :
    "1.1" ≠ "" ∧ mapGet danglingFile.Deltas "1.1" = none ∧
    "1.1" ∉ (GetCommits danglingFile).map Commit.Revision :=
  ⟨by decide, by decide,
    (addCommit_missing_delta_skipped danglingFile "1.1" (by decide) (by decide)).2.1⟩

/-- C7: the output of `GetCommits` has no two commits with the same `Revision`,
and its length is at most the number of entries of the delta table. -/
theorem GetCommits_no_duplicates (r : RCSFile) :
    ((GetCommits r).map Commit.Revision).Nodup ∧
    (GetCommits r).length ≤ r.Deltas.length := by
  have nd := GetCommits_nodup_revisions r
  refine ⟨nd, ?_⟩
  have hsub : (GetCommits r).map Commit.Revision ⊆ r.Deltas.map Prod.fst := by
    intro x hx
    obtain ⟨c, hc, rfl⟩ := List.mem_map.1 hx
    obtain ⟨d, hd, _⟩ := GetCommits_from_delta r c hc
    exact mapGet_some_key _ _ _ hd
  have := (List.subperm_of_subset nd hsub).length_le
  simpa using this

/-- C8: the `Revision` values of the output of `GetCommits` are exactly the
revision ids reachable from `Head` along `Next` and `Branches` edges through
non-empty ids that have a delta. -/
theorem GetCommits_exactly_reachable (r : RCSFile) (rev : String) :
    rev ∈ (GetCommits r).map Commit.Revision ↔ Reachable r rev :=
  GetCommits_mem_iff r rev

/-- C9: every commit of the output of `GetCommits` has a delta under its
`Revision`, and its `Author`, `Date` and `Message` are that delta's `Author`,
`Date` and `Log`. -/
theorem GetCommits_carries_delta_fields (r : RCSFile) (c : Commit) (h : c ∈ GetCommits r) :
    ∃ d, mapGet r.Deltas c.Revision = some d ∧
      c.Author = d.Author ∧ c.Date = d.Date ∧ c.Message = d.Log :=
  GetCommits_from_delta r c h

/-- Witness of C9: the head commit of `trunkFile`. -/
theorem GetCommits_carries_delta_fields_witness :
    ∃ d, mapGet trunkFile.Deltas "1.3" = some d ∧
      "alice" = d.Author ∧ (102 : Int) = d.Date ∧ "fix" = d.Log :=
  GetCommits_carries_delta_fields trunkFile
    { Revision := "1.3", Author := "alice", Date := 102, Message := "fix", Branch := "" }
    (by decide)

/-- C10: when every delta has an empty `Branches` list, `GetCommits` returns the
next-chain from `Head` in order, stopped at the first id that is empty, already
emitted or without a delta, and every commit has the empty branch name. -/
theorem GetCommits_next_chain (r : RCSFile) (hB : ∀ p ∈ r.Deltas, p.2.Branches = [])
    (n : Nat) (hn : r.Deltas.length < n) :
    GetCommits r = nextChain r n r.Head [] ∧ ∀ c ∈ GetCommits r, c.Branch = "" := by
  have hfuel := GetCommitsFuel_eq r n hn
  unfold GetCommitsFuel at hfuel
  have hchain : GetCommits r = nextChain r n r.Head [] := by
    cases hs : addCommit r n r.Head "" { seen := [], commits := [] } with
    | none => rw [hs] at hfuel; cases hfuel
    | some st' =>
      rw [hs] at hfuel
      simp only [Option.map_some', Option.some.injEq] at hfuel
      rw [← hfuel, addCommit_chain r hB n r.Head _ st' hs]
      simp
  refine ⟨hchain, ?_⟩
  rw [hchain]
  exact nextChain_trunk r n r.Head []

/-- Witness of C10: head `1.3` with `1.3 -> 1.2 -> 1.1` yields `1.3, 1.2, 1.1`, all
on the trunk. -/
theorem GetCommits_next_chain_witness :
    (GetCommits trunkFile = nextChain trunkFile 4 trunkFile.Head [] ∧
      ∀ c ∈ GetCommits trunkFile, c.Branch = "") ∧
    (GetCommits trunkFile).map (fun c => (c.Revision, c.Branch)) =
      [("1.3", ""), ("1.2", ""), ("1.1", "")] :=
  ⟨GetCommits_next_chain trunkFile (by decide) 4 (by decide), by decide⟩

/-! ## The symbol loop -/

theorem isBranchPrefix_iff (s b : String) : isBranchPrefix s b = true ↔ s.data <+: b.data := by
  unfold isBranchPrefix
  by_cases h : b.data.length < s.data.length
  · rw [if_pos h]
    constructor
    · intro h'
      cases h'
    · intro hp
      have := hp.length_le
      omega
  · rw [if_neg h, decide_eq_true_eq, List.prefix_iff_eq_take]
    exact eq_comm

theorem symbol_match_iff (s b : String) :
    (s = b ∨ isBranchPrefix s b = true) ↔ s.data <+: b.data := by
  rw [isBranchPrefix_iff]
  constructor
  · rintro (h | h)
    · rw [h]
    · exact h
  · exact Or.inr

theorem findBranchSymbol_no_match (syms : List (String × String)) (b : String)
    (h : ∀ p ∈ syms, ¬ p.2.data <+: b.data) : findBranchSymbol syms b = "" := by
  induction syms with
  | nil => rfl
  | cons p syms ih =>
    obtain ⟨sym, symRev⟩ := p
    have hp : ¬ (symRev = b ∨ isBranchPrefix symRev b = true) := by
      rw [symbol_match_iff]
      exact h (sym, symRev) (List.mem_cons_self _ _)
    simp only [findBranchSymbol, if_neg hp]
    exact ih (fun q hq => h q (List.mem_cons_of_mem _ hq))

theorem findBranchSymbol_only_match (syms : List (String × String)) (b sym : String)
    (hex : ∃ p ∈ syms, p.1 = sym ∧ p.2.data <+: b.data)
    (huniq : ∀ p ∈ syms, p.2.data <+: b.data → p.1 = sym) :
    findBranchSymbol syms b = sym := by
  induction syms with
  | nil =>
    obtain ⟨p, hp, _⟩ := hex
    cases hp
  | cons q syms ih =>
    obtain ⟨name, symRev⟩ := q
    by_cases hq : symRev = b ∨ isBranchPrefix symRev b = true
    · simp only [findBranchSymbol, if_pos hq]
      exact huniq (name, symRev) (List.mem_cons_self _ _) ((symbol_match_iff _ _).1 hq)
    · simp only [findBranchSymbol, if_neg hq]
      refine ih ?_ (fun p hp => huniq p (List.mem_cons_of_mem _ hp))
      obtain ⟨p, hp, hname, hpre⟩ := hex
      rcases List.mem_cons.1 hp with h | h
      · subst h
        exact absurd ((symbol_match_iff _ _).2 hpre) hq
      · exact ⟨p, h, hname, hpre⟩

/-! ## Branches and tags -/

theorem branches_foldl (l : List (String × String)) (acc : List String) :
    l.foldl (fun branches p => if isBranchNumber p.2 = true then branches ++ [p.1] else branches)
        acc =
      acc ++ (l.filter (fun p => isBranchNumber p.2)).map Prod.fst := by
  induction l generalizing acc with
  | nil => simp
  | cons p l ih =>
    rw [List.foldl_cons, ih]
    by_cases hp : isBranchNumber p.2 = true
    · simp [hp, List.filter_cons]
    · simp [hp, List.filter_cons]

theorem mem_GetBranches (r : RCSFile) (sym : String) :
    sym ∈ GetBranches r ↔ ∃ rev, (sym, rev) ∈ r.Symbols ∧ isBranchNumber rev = true := by
  unfold GetBranches
  rw [branches_foldl]
  simp only [List.nil_append, List.mem_map, List.mem_filter]
  constructor
  · rintro ⟨p, ⟨hp, hb⟩, rfl⟩
    exact ⟨p.2, hp, hb⟩
  · rintro ⟨rev, hp, hb⟩
    exact ⟨(sym, rev), ⟨hp, hb⟩, rfl⟩

theorem mapGet_mapSet {β : Type} (m : List (String × β)) (k : String) (v : β) (k' : String) :
    mapGet (mapSet m k v) k' = if k = k' then some v else mapGet m k' := by
  induction m with
  | nil => simp [mapSet, mapGet]
  | cons q m ih =>
    obtain ⟨k0, w⟩ := q
    by_cases h0 : k0 = k
    · subst h0
      by_cases h1 : k0 = k'
      · simp [mapSet, mapGet, h1]
      · simp [mapSet, mapGet, h1]
    · by_cases h1 : k0 = k'
      · subst h1
        simp [mapSet, mapGet, h0, Ne.symm h0]
      · simp [mapSet, mapGet, h0, h1, ih]

theorem tags_foldl_other (l : List (String × String)) (acc : List (String × String))
    (k : String) (h : k ∉ l.map Prod.fst) :
    mapGet (l.foldl
      (fun tags p => if isBranchNumber p.2 = false then mapSet tags p.1 p.2 else tags) acc) k =
      mapGet acc k := by
  induction l generalizing acc with
  | nil => rfl
  | cons p l ih =>
    have hk : p.1 ≠ k := fun hx => h (by simp [hx])
    have hl : k ∉ l.map Prod.fst := fun hx => h (by
      rw [List.map_cons]
      exact List.mem_cons_of_mem _ hx)
    rw [List.foldl_cons, ih _ hl]
    by_cases hp : isBranchNumber p.2 = false
    · rw [if_pos hp, mapGet_mapSet, if_neg hk]
    · rw [if_neg hp]

theorem tags_foldl_entry (l : List (String × String)) (acc : List (String × String))
    (k rev : String) (hnd : (l.map Prod.fst).Nodup) (h : (k, rev) ∈ l) :
    mapGet (l.foldl
      (fun tags p => if isBranchNumber p.2 = false then mapSet tags p.1 p.2 else tags) acc) k =
      if isBranchNumber rev = false then some rev else mapGet acc k := by
  induction l generalizing acc with
  | nil => cases h
  | cons p l ih =>
    rw [List.map_cons, List.nodup_cons] at hnd
    rw [List.foldl_cons]
    rcases List.mem_cons.1 h with hp | hp
    · subst hp
      rw [tags_foldl_other l _ k hnd.1]
      by_cases hb : isBranchNumber rev = false
      · simp [hb, mapGet_mapSet]
      · simp [hb]
    · have hk : p.1 ≠ k := by
        intro hx
        apply hnd.1
        rw [hx]
        exact List.mem_map.2 ⟨(k, rev), hp, rfl⟩
      rw [ih _ hnd.2 hp]
      by_cases hb : isBranchNumber rev = false
      · rw [if_pos hb, if_pos hb]
      · rw [if_neg hb, if_neg hb]
        by_cases hq : isBranchNumber p.2 = false
        · rw [if_pos hq, mapGet_mapSet, if_neg hk]
        · rw [if_neg hq]

theorem symbols_value_unique (l : List (String × String)) (k v w : String)
    (hnd : (l.map Prod.fst).Nodup) (hv : (k, v) ∈ l) (hw : (k, w) ∈ l) : v = w := by
  induction l with
  | nil => cases hv
  | cons p l ih =>
    rw [List.map_cons, List.nodup_cons] at hnd
    rcases List.mem_cons.1 hv with h1 | h1 <;> rcases List.mem_cons.1 hw with h2 | h2
    · rw [← h1] at h2
      exact (Prod.mk.inj h2).2.symm
    · subst h1
      exact absurd (List.mem_map.2 ⟨(k, w), h2, rfl⟩) hnd.1
    · subst h2
      exact absurd (List.mem_map.2 ⟨(k, v), h1, rfl⟩) hnd.1
    · exact ih hnd.2 h1 h2

/-! ## The calls made by the walk -/

theorem unseenCount_le (r : RCSFile) (seen : List String) :
    unseenCount r seen ≤ r.Deltas.length := by
  have := unseenCount_mono r [] seen (List.nil_subset _)
  rw [unseenCount_nil] at this
  exact this

theorem addCommit_full (r : RCSFile) (rev branch : String) (st : WalkState) :
    ∃ st', addCommit r (r.Deltas.length + 1) rev branch st = some st' :=
  addCommit_total r _ rev branch st (Nat.lt_succ_of_le (unseenCount_le r st.seen))

theorem addCommit_fuel_full (r : RCSFile) (fuel : Nat) (rev branch : String)
    (st st' : WalkState) (h : addCommit r fuel rev branch st = some st') :
    addCommit r (r.Deltas.length + 1) rev branch st = some st' := by
  by_cases hle : fuel ≤ r.Deltas.length + 1
  · exact addCommit_fuel_le r fuel _ hle rev branch st st' h
  · obtain ⟨s, hs⟩ := addCommit_full r rev branch st
    have := addCommit_fuel_le r _ fuel (by omega) rev branch st s hs
    rw [h] at this
    rw [hs, this]

theorem walkBranches_append (step : String → WalkState → Option WalkState)
    (l1 l2 : List String) (s : WalkState) :
    walkBranches step (l1 ++ l2) s = (walkBranches step l1 s).bind (walkBranches step l2) := by
  induction l1 generalizing s with
  | nil => simp [walkBranches]
  | cons b l1 ih =>
    simp only [List.cons_append, walkBranches]
    cases step b s with
    | none => rfl
    | some s1 => simpa using ih s1

theorem WalkOK.commits_extend {r : RCSFile} {roots : List String} {st st' : WalkState}
    (h : WalkOK r roots st st') : st.commits <+: st'.commits := by
  obtain ⟨new, e, _⟩ := h.commits_ext
  exact ⟨new, e.symm⟩

theorem addCommit_visit (r : RCSFile) (n : Nat) (rev branch : String) (st : WalkState)
    (d : Delta) (hne : rev ≠ "") (hns : rev ∉ st.seen) (hd : mapGet r.Deltas rev = some d) :
    addCommit r (n + 1) rev branch st =
      (walkBranches (fun x => addCommit r n x (findBranchSymbol r.Symbols x)) d.Branches
        (visitState rev branch d st)).bind (addCommit r n d.Next branch) := by
  have hstop : ¬ (rev = "" ∨ rev ∈ st.seen) := fun h => h.elim hne hns
  rw [addCommit, if_neg hstop, hd]
  rfl

theorem walkBranches_full (r : RCSFile) (n : Nat) (bs : List String) (s s' : WalkState)
    (h : walkBranches (fun x => addCommit r n x (findBranchSymbol r.Symbols x)) bs s = some s') :
    walkBranches (branchStep r) bs s = some s' :=
  walkBranches_congr _ _ (fun b t t' ht => addCommit_fuel_full r n b _ t t' ht) bs s s' h

theorem walkBranches_commits_extend (r : RCSFile) (n : Nat) (bs : List String)
    (s s' : WalkState)
    (h : walkBranches (fun x => addCommit r n x (findBranchSymbol r.Symbols x)) bs s = some s') :
    s.commits <+: s'.commits :=
  (walkBranches_ok r _ (fun b t t' ht => addCommit_ok r n b _ t t' ht) bs s s' h).commits_extend

theorem called_extends (r : RCSFile) (rev branch : String) (st : WalkState)
    (h : Called r rev branch st) :
    ∃ st', addCommit r (r.Deltas.length + 1) rev branch st = some st' ∧
      st'.commits <+: GetCommits r := by
  induction h with
  | head =>
    obtain ⟨st', hs, hcs, _⟩ := GetCommits_walk r
    exact ⟨st', hs, by rw [hcs]⟩
  | branch rev branch st d pre b post s _ hne hns hd hsplit hs ih =>
    obtain ⟨st', hrun, hpre⟩ := ih
    rw [addCommit_visit r _ rev branch st d hne hns hd, hsplit, walkBranches_append] at hrun
    cases h1 : walkBranches (fun x => addCommit r r.Deltas.length x
        (findBranchSymbol r.Symbols x)) pre (visitState rev branch d st) with
    | none => rw [h1] at hrun; cases hrun
    | some sp =>
      rw [h1] at hrun
      simp only [Option.some_bind, walkBranches] at hrun
      have hsp := walkBranches_full r _ pre _ sp h1
      rw [hs] at hsp
      cases hsp
      cases h2 : addCommit r r.Deltas.length b (findBranchSymbol r.Symbols b) s with
      | none => rw [h2] at hrun; cases hrun
      | some sb =>
        rw [h2] at hrun
        simp only [Option.some_bind] at hrun
        cases h3 : walkBranches (fun x => addCommit r r.Deltas.length x
            (findBranchSymbol r.Symbols x)) post sb with
        | none => rw [h3] at hrun; cases hrun
        | some s2 =>
          rw [h3] at hrun
          simp only [Option.some_bind] at hrun
          refine ⟨sb, addCommit_fuel_succ r _ b _ s sb h2, ?_⟩
          exact ((walkBranches_commits_extend r _ post sb s2 h3).trans
            (addCommit_ok r _ _ _ _ _ hrun).commits_extend).trans hpre
  | next rev branch st d s _ hne hns hd hs ih =>
    obtain ⟨st', hrun, hpre⟩ := ih
    rw [addCommit_visit r _ rev branch st d hne hns hd] at hrun
    cases h1 : walkBranches (fun x => addCommit r r.Deltas.length x
        (findBranchSymbol r.Symbols x)) d.Branches (visitState rev branch d st) with
    | none => rw [h1] at hrun; cases hrun
    | some s2 =>
      rw [h1] at hrun
      simp only [Option.some_bind] at hrun
      have hs2 := walkBranches_full r _ d.Branches _ s2 h1
      rw [hs] at hs2
      cases hs2
      exact ⟨st', addCommit_fuel_succ r _ _ _ _ _ hrun, hpre⟩

theorem called_emits (r : RCSFile) (rev branch : String) (st : WalkState) (d : Delta)
    (h : Called r rev branch st) (hne : rev ≠ "") (hns : rev ∉ st.seen)
    (hd : mapGet r.Deltas rev = some d) :
    ({ Revision := rev, Author := d.Author, Date := d.Date, Message := d.Log,
       Branch := branch } : Commit) ∈ GetCommits r := by
  obtain ⟨st', hrun, hpre⟩ := called_extends r rev branch st h
  rw [addCommit_visit r _ rev branch st d hne hns hd] at hrun
  cases h1 : walkBranches (fun x => addCommit r r.Deltas.length x
      (findBranchSymbol r.Symbols x)) d.Branches (visitState rev branch d st) with
  | none => rw [h1] at hrun; cases hrun
  | some s2 =>
    rw [h1] at hrun
    simp only [Option.some_bind] at hrun
    have hp := ((walkBranches_commits_extend r _ d.Branches _ s2 h1).trans
      (addCommit_ok r _ _ _ _ _ hrun).commits_extend).trans hpre
    exact hp.subset (by simp [visitState])

theorem commit_of_revision (r : RCSFile) (c c' : Commit) (hc : c ∈ GetCommits r)
    (hc' : c' ∈ GetCommits r) (h : c.Revision = c'.Revision) : c = c' :=
  List.inj_on_of_nodup_map (GetCommits_nodup_revisions r) hc hc' h

theorem branch_entry_emits (r : RCSFile) (rev b : String) (s : WalkState) (db : Delta)
    (hat : AtBranchEntry r rev b s) (hb : b ≠ "") (hfresh : b ∉ s.seen)
    (hdb : mapGet r.Deltas b = some db) :
    ({ Revision := b, Author := db.Author, Date := db.Date, Message := db.Log,
       Branch := findBranchSymbol r.Symbols b } : Commit) ∈ GetCommits r := by
  obtain ⟨branch, st, d, pre, post, hcall, hne, hns, hd, hsplit, hs⟩ := hat
  exact called_emits r b _ s db
    (Called.branch rev branch st d pre b post s hcall hne hns hd hsplit hs) hb hfresh hdb

/-! ## The state of a delta is not read -/

theorem mapGet_withStates (f : String → Delta → String) (l : List (String × Delta))
    (k : String) :
    mapGet (l.map (fun p => (p.1, { p.2 with State := f p.1 p.2 }))) k =
      (mapGet l k).map (fun d => { d with State := f k d }) := by
  induction l with
  | nil => rfl
  | cons p l ih =>
    obtain ⟨k0, d0⟩ := p
    by_cases h : k0 = k
    · subst h
      simp [mapGet]
    · simp [mapGet, h, ih]

theorem addCommit_withStates (f : String → Delta → String) (r : RCSFile) (fuel : Nat)
    (rev branch : String) (st : WalkState) :
    addCommit (withStates f r) fuel rev branch st = addCommit r fuel rev branch st := by
  induction fuel generalizing rev branch st with
  | zero => rfl
  | succ n ih =>
    have hstep : (fun x => addCommit (withStates f r) n x
        (findBranchSymbol (withStates f r).Symbols x)) =
        (fun x => addCommit r n x (findBranchSymbol r.Symbols x)) := by
      funext x t
      exact ih x _ t
    have hnext : addCommit (withStates f r) n = addCommit r n := by
      funext x b t
      exact ih x b t
    unfold addCommit
    rw [hstep, hnext]
    by_cases hstop : rev = "" ∨ rev ∈ st.seen
    · rw [if_pos hstop, if_pos hstop]
    · rw [if_neg hstop, if_neg hstop]
      have hget : mapGet (withStates f r).Deltas rev =
          (mapGet r.Deltas rev).map (fun d => { d with State := f rev d }) :=
        mapGet_withStates f r.Deltas rev
      rw [hget]
      cases mapGet r.Deltas rev with
      | none => rfl
      | some d => rfl

theorem GetCommits_withStates (f : String → Delta → String) (r : RCSFile) :
    GetCommits (withStates f r) = GetCommits r := by
  have hlen : (withStates f r).Deltas.length = r.Deltas.length := by
    simp [withStates]
  have hhead : (withStates f r).Head = r.Head := rfl
  unfold GetCommits GetCommitsFuel
  rw [hlen, hhead, addCommit_withStates]

theorem count_dots_of_magic (l : List Char) (h : ".0.".data <:+: l) : 2 ≤ l.count '.' := by
  have := h.sublist.count_le '.'
  have h2 : ".0.".data.count '.' = 2 := by decide
  omega

theorem isBranchNumber_trunk (rev : String) (h : rev.data.count '.' = 1) :
    isBranchNumber rev = false := by
  cases hb : isBranchNumber rev with
  | false => rfl
  | true =>
    rcases (isBranchNumber_spec rev).1 hb with h1 | h1
    · have := count_dots_of_magic _ h1
      omega
    · omega

/-! ## The claims about branch names -/

/-- C11 fails on the code: the match test is a raw string prefix test, so the
symbol revision `1.1` matches the branch head `1.10.2.1` although the components
`1`, `1` are not a prefix of `1`, `10`, `2`, `1`; in `tagPrefixFile` the commit for
`1.10.2.1` gets the name of the tag on `1.1`. -/
theorem isBranchPrefix_crosses_component :
    ("1.1" = "1.10.2.1" ∨ isBranchPrefix "1.1" "1.10.2.1" = true) ∧
    ¬ (components "1.1".data <+: components "1.10.2.1".data) ∧
    findBranchSymbol tagPrefixFile.Symbols "1.10.2.1" = "REL_1_1" ∧
    (GetCommits tagPrefixFile).map (fun c => (c.Revision, c.Branch)) =
      [("1.10", ""), ("1.10.2.1", "REL_1_1")] := by
  refine ⟨Or.inr (by decide), by decide, by decide, by decide⟩

/-- C12 fails on the code: `twoTagsFile` and `twoTagsFileSwapped` have the same
head, the same deltas and the same symbols in two enumeration orders, and the
commit for `1.2.2.1` is on `REL_A` in one and on `REL_B` in the other. -/
theorem GetCommits_depends_on_symbol_order :
    twoTagsFileSwapped.Head = twoTagsFile.Head ∧
    twoTagsFileSwapped.Deltas = twoTagsFile.Deltas ∧
    twoTagsFileSwapped.Symbols.Perm twoTagsFile.Symbols ∧
    (GetCommits twoTagsFile).map (fun c => (c.Revision, c.Branch)) =
      [("1.2", ""), ("1.2.2.1", "REL_A")] ∧
    (GetCommits twoTagsFileSwapped).map (fun c => (c.Revision, c.Branch)) =
      [("1.2", ""), ("1.2.2.1", "REL_B")] ∧
    GetCommits twoTagsFile ≠ GetCommits twoTagsFileSwapped := by
  refine ⟨rfl, rfl, List.Perm.swap _ _ _, by decide, by decide, by decide⟩

/-- C13 fails on the code: in `taggedFile` the plain tag `RELEASE_1_0 -> 1.2` is a
string prefix of the branch head `1.2.2.1`, so the commit for `1.2.2.1` carries
the branch name `RELEASE_1_0`, which `GetBranches` does not return and which is
a key of `GetTags`. -/
theorem GetCommits_branch_is_plain_tag :
    (GetCommits taggedFile).map (fun c => (c.Revision, c.Branch)) =
      [("1.2", ""), ("1.2.2.1", "RELEASE_1_0")] ∧
    isBranchNumber "1.2" = false ∧
    GetBranches taggedFile = [] ∧
    GetTags taggedFile = [("RELEASE_1_0", "1.2")] ∧
    mapGet (GetTags taggedFile) "RELEASE_1_0" = some "1.2" := by
  refine ⟨by decide, by decide, by decide, by decide, by decide⟩

/-- C14: when the loop over the `Branches` of an emitted delta comes to a
non-empty entry `b` that has a delta and is not yet seen, and no symbol revision
equals `b` or is a string prefix of `b`, the commit for `b` is emitted and its
`Branch` is the empty string. -/
theorem GetCommits_unresolved_branch_head (r : RCSFile) (rev b : String) (s : WalkState)
    (db : Delta) (hat : AtBranchEntry r rev b s) (hb : b ≠ "")
    (hdb : mapGet r.Deltas b = some db) (hfresh : b ∉ s.seen)
    (hnone : ∀ p ∈ r.Symbols, p.2 ≠ b ∧ ¬ p.2.data <+: b.data) :
    (∃ c ∈ GetCommits r, c.Revision = b) ∧
    ∀ c ∈ GetCommits r, c.Revision = b → c.Branch = "" := by
  have hmem := branch_entry_emits r rev b s db hat hb hfresh hdb
  rw [findBranchSymbol_no_match r.Symbols b (fun p hp => (hnone p hp).2)] at hmem
  refine ⟨⟨_, hmem, rfl⟩, ?_⟩
  intro c hc hrev
  rw [commit_of_revision r c _ hc hmem hrev]

/-- Witness of C14: in `featureFile` no symbol revision is a prefix of the branch
head `1.2.2.1`, listed by the head delta `1.2`. -/
theorem GetCommits_unresolved_branch_head_witness :
    (∃ c ∈ GetCommits featureFile, c.Revision = "1.2.2.1") ∧
    ∀ c ∈ GetCommits featureFile, c.Revision = "1.2.2.1" → c.Branch = "" :=
  GetCommits_unresolved_branch_head featureFile "1.2" "1.2.2.1"
    (visitState "1.2" "" (mkDelta "1.2" "alice" "second" 200 ["1.2.2.1"] "1.1")
      { seen := [], commits := [] })
    (mkDelta "1.2.2.1" "bob" "on branch" 300 [] "")
    ⟨"", { seen := [], commits := [] }, mkDelta "1.2" "alice" "second" 200 ["1.2.2.1"] "1.1",
      [], [], Called.head, by decide, by simp, rfl, rfl, rfl⟩
    (by decide) rfl (by decide) (by decide)

/-- C15: when the loop over the `Branches` of an emitted delta comes to a
non-empty entry `b` that has a delta and is not yet seen, and exactly one symbol
`sym` has a revision that equals `b` or is a string prefix of `b`, the commit
emitted for `b` has `Branch = sym`; the symbol loop finds `sym` in every
enumeration order of the symbol table. -/
theorem GetCommits_only_matching_symbol (r : RCSFile) (rev b sym : String) (s : WalkState)
    (db : Delta) (hat : AtBranchEntry r rev b s) (hb : b ≠ "")
    (hdb : mapGet r.Deltas b = some db) (hfresh : b ∉ s.seen)
    (hex : ∃ p ∈ r.Symbols, p.1 = sym ∧ (p.2 = b ∨ p.2.data <+: b.data))
    (huniq : ∀ p ∈ r.Symbols, (p.2 = b ∨ p.2.data <+: b.data) → p.1 = sym) :
    (∃ c ∈ GetCommits r, c.Revision = b) ∧
    (∀ c ∈ GetCommits r, c.Revision = b → c.Branch = sym) ∧
    ∀ syms : List (String × String), syms.Perm r.Symbols → findBranchSymbol syms b = sym := by
  have hfind : ∀ syms : List (String × String), syms.Perm r.Symbols →
      findBranchSymbol syms b = sym := by
    intro syms hperm
    refine findBranchSymbol_only_match syms b sym ?_ ?_
    · obtain ⟨p, hp, hname, hm⟩ := hex
      refine ⟨p, hperm.mem_iff.2 hp, hname, ?_⟩
      rcases hm with hm | hm
      · rw [hm]
      · exact hm
    · intro p hp hm
      exact huniq p (hperm.mem_iff.1 hp) (Or.inr hm)
  have hmem := branch_entry_emits r rev b s db hat hb hfresh hdb
  rw [hfind r.Symbols (List.Perm.refl _)] at hmem
  refine ⟨⟨_, hmem, rfl⟩, ?_, hfind⟩
  intro c hc hrev
  rw [commit_of_revision r c _ hc hmem hrev]

/-- Witness of C15: in `exactFile` the symbol `FEATURE_X -> 1.2.2` is the only one
whose revision is a prefix of the branch head `1.2.2.1`. -/
theorem GetCommits_only_matching_symbol_witness :
    (∃ c ∈ GetCommits exactFile, c.Revision = "1.2.2.1") ∧
    (∀ c ∈ GetCommits exactFile, c.Revision = "1.2.2.1" → c.Branch = "FEATURE_X") ∧
    ∀ syms : List (String × String), syms.Perm exactFile.Symbols →
      findBranchSymbol syms "1.2.2.1" = "FEATURE_X" :=
  GetCommits_only_matching_symbol exactFile "1.2" "1.2.2.1" "FEATURE_X"
    (visitState "1.2" "" (mkDelta "1.2" "alice" "second" 200 ["1.2.2.1"] "1.1")
      { seen := [], commits := [] })
    (mkDelta "1.2.2.1" "bob" "on branch" 300 [] "")
    ⟨"", { seen := [], commits := [] }, mkDelta "1.2" "alice" "second" 200 ["1.2.2.1"] "1.1",
      [], [], Called.head, by decide, by simp, rfl, rfl, rfl⟩
    (by decide) rfl (by decide)
    ⟨("FEATURE_X", "1.2.2"), by decide, rfl, Or.inr (by decide)⟩ (by decide)

/-! ## The claims about order, state, branches and tags -/

/-- C16 fails on the code: the output is in walk order, not sorted by date. In
`datedFile` the commit for `1.2` (date 200) comes before the commit for the
branch head `1.2.2.1` (date 250), which is later. -/
theorem GetCommits_not_reverse_chronological :
    (GetCommits datedFile).map (fun c => (c.Revision, c.Date)) =
      [("1.3", 300), ("1.2", 200), ("1.2.2.1", 250), ("1.1", 100)] ∧
    ∃ ci cj, (GetCommits datedFile).get? 1 = some ci ∧ (GetCommits datedFile).get? 2 = some cj ∧
      ci.Date < cj.Date := by
  refine ⟨by decide, _, _, rfl, rfl, by decide⟩

/-- C17 as stated fails: `deadFile` and `cutFile` differ only in the `State` of the
delta `1.2` (`dead` against `Exp`), and `GetCommits` returns the same list for
both. -/
theorem GetCommits_dead_indistinguishable :
    deadFile.Head = cutFile.Head ∧ deadFile.Symbols = cutFile.Symbols ∧
    deadFile.Deltas =
      (withStates (fun k d => if k = "1.2" then "dead" else d.State) cutFile).Deltas ∧
    (mapGet deadFile.Deltas "1.2").map Delta.State = some "dead" ∧
    (mapGet cutFile.Deltas "1.2").map Delta.State = some "Exp" ∧
    GetCommits deadFile = GetCommits cutFile := by
  refine ⟨rfl, rfl, by decide, by decide, by decide, by decide⟩

/-- C17 amended: `GetCommits` does not read the `State` of a delta, and a commit
carries no action: two files that differ only in the `State` of their deltas
produce equal outputs. -/
theorem GetCommits_ignores_state (f : String → Delta → String) (r : RCSFile) :
    GetCommits (withStates f r) = GetCommits r :=
  GetCommits_withStates f r

/-- C18: a symbol whose revision contains `.0.` is among the names `GetBranches`
returns and is not a key of the map `GetTags` returns. -/
theorem magic_symbol_is_branch (r : RCSFile) (sym rev : String)
    (hwf : (r.Symbols.map Prod.fst).Nodup) (h : (sym, rev) ∈ r.Symbols)
    (hmagic : ".0.".data <:+: rev.data) :
    sym ∈ GetBranches r ∧ mapGet (GetTags r) sym = none := by
  have hb : isBranchNumber rev = true := (isBranchNumber_spec rev).2 (Or.inl hmagic)
  refine ⟨(mem_GetBranches r sym).2 ⟨rev, h, hb⟩, ?_⟩
  unfold GetTags
  rw [tags_foldl_entry r.Symbols [] sym rev hwf h, hb]
  rfl

/-- Witness of C18: `FEATURE_X -> 1.2.0.2` in `featureFile`. -/
theorem magic_symbol_is_branch_witness :
    "FEATURE_X" ∈ GetBranches featureFile ∧ mapGet (GetTags featureFile) "FEATURE_X" = none :=
  magic_symbol_is_branch featureFile "FEATURE_X" "1.2.0.2" (by decide) (by decide)
    ((stringsContains_iff _ _).1 (by decide))

/-- C19: a symbol whose revision has exactly one dot is a key of the map `GetTags`
returns, mapped to that revision, and is not among the names `GetBranches`
returns; a string with exactly one dot never satisfies `isBranchNumber`. -/
theorem trunk_symbol_is_tag (r : RCSFile) (sym rev : String)
    (hwf : (r.Symbols.map Prod.fst).Nodup) (h : (sym, rev) ∈ r.Symbols)
    (htrunk : rev.data.count '.' = 1) :
    mapGet (GetTags r) sym = some rev ∧ sym ∉ GetBranches r ∧
    isBranchNumber rev = false := by
  have hb : isBranchNumber rev = false := isBranchNumber_trunk rev htrunk
  refine ⟨?_, ?_, hb⟩
  · unfold GetTags
    rw [tags_foldl_entry r.Symbols [] sym rev hwf h, if_pos hb]
  · intro hmem
    obtain ⟨rev', h', hb'⟩ := (mem_GetBranches r sym).1 hmem
    rw [symbols_value_unique r.Symbols sym rev' rev hwf h' h, hb] at hb'
    cases hb'

/-- Witness of C19: `RELEASE_1_0 -> 1.1` in `tagsFile`. -/
theorem trunk_symbol_is_tag_witness :
    mapGet (GetTags tagsFile) "RELEASE_1_0" = some "1.1" ∧
    "RELEASE_1_0" ∉ GetBranches tagsFile ∧ isBranchNumber "1.1" = false :=
  trunk_symbol_is_tag tagsFile "RELEASE_1_0" "1.1" (by decide) (by decide) (by decide)

/-- C20 fails on the code: in `vendorFile` the vendor branch symbol
`VENDOR -> 1.1.1` is returned by `GetTags`, and `1.1.1` has two dots (three
components), so it is not a trunk revision. -/
theorem GetTags_returns_vendor_branch :
    GetTags vendorFile = [("VENDOR", "1.1.1")] ∧
    mapGet (GetTags vendorFile) "VENDOR" = some "1.1.1" ∧
    "1.1.1".data.count '.' = 2 ∧ (components "1.1.1".data).length = 3 ∧
    isBranchNumber "1.1.1" = false := by
  refine ⟨by decide, by decide, by decide, by decide, by decide⟩

/-! ## The prefix test is in range -/

theorem isBranchPrefixChecked_eq {α : Type} [DecidableEq α] (branchNum rev : List α) :
    isBranchPrefixChecked branchNum rev = some (decide (branchNum <+: rev)) := by
  unfold isBranchPrefixChecked sliceTo
  by_cases h : rev.length < branchNum.length
  · rw [if_pos h]
    have : ¬ branchNum <+: rev := fun hp => by
      have := hp.length_le
      omega
    simp [this]
  · rw [if_neg h, if_pos (Nat.le_of_not_lt h)]
    simp only [Option.map_some', Option.some.injEq]
    congr 1
    rw [List.prefix_iff_eq_take]
    exact propext eq_comm

theorem isBranchPrefix_eq_checked (branchNum rev : String) :
    isBranchPrefixChecked branchNum.data rev.data = some (isBranchPrefix branchNum rev) := by
  rw [isBranchPrefixChecked_eq]
  congr 1
  cases h : isBranchPrefix branchNum rev with
  | true => exact decide_eq_true ((isBranchPrefix_iff _ _).1 h)
  | false =>
    refine decide_eq_false ?_
    intro hp
    rw [(isBranchPrefix_iff _ _).2 hp] at h
    cases h

/-- C30: `isBranchPrefix` never slices `rev` out of range (the checked slice
always has a value, for bytes as for characters) and returns true if and only
if `rev` starts with `branchNum`; hence it is reflexive and an empty `branchNum`
matches every `rev`. -/
theorem isBranchPrefix_in_range (branchNum rev : String) :
    (∀ (α : Type) [DecidableEq α] (b v : List α),
      isBranchPrefixChecked b v = some (decide (b <+: v))) ∧
    isBranchPrefixChecked branchNum.data rev.data = some (isBranchPrefix branchNum rev) ∧
    (isBranchPrefix branchNum rev = true ↔ branchNum.data <+: rev.data) ∧
    isBranchPrefix rev rev = true ∧ isBranchPrefix "" rev = true := by
  refine ⟨fun α _ b v => isBranchPrefixChecked_eq b v, isBranchPrefix_eq_checked _ _,
    isBranchPrefix_iff _ _, (isBranchPrefix_iff _ _).2 (List.prefix_refl _),
    (isBranchPrefix_iff _ _).2 (List.nil_prefix)⟩

/-! ## Author mapping -/

/-- C22: for a username without an entry in the author map, `Get` returns the
username as the name and `username@<default domain>` as the email; the default
domain is `users.noreply.cvs.example.org` for `NewAuthorMap` and the given one for
`NewAuthorMapWithDefault`, and a nil and an empty config behave alike. -/
theorem AuthorMap_Get_unmapped (parseAuthor : String → Option (String × String))
    (config : Option (List (String × String))) (domain username : String)
    (h : mapGet (config.getD []) username = none) :
    (NewAuthorMap config).Get parseAuthor username =
      (username, username ++ "@" ++ "users.noreply.cvs.example.org") ∧
    (NewAuthorMapWithDefault config domain).Get parseAuthor username =
      (username, username ++ "@" ++ domain) ∧
    (NewAuthorMap none).Get parseAuthor username =
      (NewAuthorMap (some [])).Get parseAuthor username := by
  refine ⟨?_, ?_, rfl⟩
  · simp [AuthorMap.Get, NewAuthorMap, NewAuthorMapWithDefault, h]
  · simp [AuthorMap.Get, NewAuthorMapWithDefault, h]

/-- Witness of C22: `Get("unknown")` on the map with the one entry `existing`. -/
theorem AuthorMap_Get_unmapped_witness :
    (NewAuthorMap (some [("existing", "Existing User <existing@example.com>")])).Get
        (fun _ => none) "unknown" =
      ("unknown", "unknown@users.noreply.cvs.example.org") :=
  (AuthorMap_Get_unmapped (fun _ => none)
    (some [("existing", "Existing User <existing@example.com>")]) "mycompany.com" "unknown"
    (by decide)).1

/-! ## Branches and tags partition the symbols -/

theorem mapSet_new {β : Type} (m : List (String × β)) (k : String) (v : β)
    (h : k ∉ m.map Prod.fst) : mapSet m k v = m ++ [(k, v)] := by
  induction m with
  | nil => rfl
  | cons q m ih =>
    obtain ⟨k0, w⟩ := q
    have h0 : k0 ≠ k := fun hx => h (by simp [hx])
    have hm : k ∉ m.map Prod.fst := fun hx => h (by
      rw [List.map_cons]
      exact List.mem_cons_of_mem _ hx)
    simp [mapSet, h0, ih hm]

theorem tags_foldl_nodup (l acc : List (String × String)) (hnd : (l.map Prod.fst).Nodup)
    (hdis : ∀ k ∈ l.map Prod.fst, k ∉ acc.map Prod.fst) :
    l.foldl (fun tags p => if isBranchNumber p.2 = false then mapSet tags p.1 p.2 else tags)
        acc =
      acc ++ l.filter (fun p => !isBranchNumber p.2) := by
  induction l generalizing acc with
  | nil => simp
  | cons p l ih =>
    rw [List.map_cons, List.nodup_cons] at hnd
    have hp : p.1 ∉ acc.map Prod.fst := hdis p.1 (by simp)
    rw [List.foldl_cons]
    by_cases hb : isBranchNumber p.2 = false
    · rw [if_pos hb, mapSet_new acc p.1 p.2 hp, ih _ hnd.2]
      · simp [List.filter_cons, hb]
      · intro k hk hmem
        rw [List.map_append, List.mem_append] at hmem
        rcases hmem with hmem | hmem
        · exact hdis k (by
            rw [List.map_cons]
            exact List.mem_cons_of_mem _ hk) hmem
        · simp only [List.map_cons, List.map_nil, List.mem_singleton] at hmem
          rw [hmem] at hk
          exact hnd.1 hk
    · rw [if_neg hb, ih _ hnd.2]
      · simp [List.filter_cons, hb]
      · intro k hk
        exact hdis k (by
          rw [List.map_cons]
          exact List.mem_cons_of_mem _ hk)

theorem GetTags_eq_filter (r : RCSFile) (hwf : (r.Symbols.map Prod.fst).Nodup) :
    GetTags r = r.Symbols.filter (fun p => !isBranchNumber p.2) := by
  unfold GetTags
  rw [tags_foldl_nodup r.Symbols [] hwf (by simp)]
  rfl

theorem GetBranches_eq_filter (r : RCSFile) :
    GetBranches r = (r.Symbols.filter (fun p => isBranchNumber p.2)).map Prod.fst := by
  unfold GetBranches
  rw [branches_foldl]
  rfl

theorem mapGet_of_mem_nodup {β : Type} (l : List (String × β)) (k : String) (v : β)
    (hnd : (l.map Prod.fst).Nodup) (h : (k, v) ∈ l) : mapGet l k = some v := by
  induction l with
  | nil => cases h
  | cons p l ih =>
    obtain ⟨k0, w⟩ := p
    rw [List.map_cons, List.nodup_cons] at hnd
    rcases List.mem_cons.1 h with hp | hp
    · cases hp
      simp [mapGet]
    · have h0 : k0 ≠ k := by
        intro hx
        apply hnd.1
        rw [hx]
        exact List.mem_map.2 ⟨(k, v), hp, rfl⟩
      simp [mapGet, h0, ih hnd.2 hp]

/-- C21: the symbol names being distinct, every symbol name occurs exactly once in
`GetBranches` or among the keys of `GetTags`, never in both; `GetBranches` has
no duplicate; the two sizes add up to the size of the symbol table; and
`GetTags` maps each of its keys to the revision `Symbols` maps it to. -/
theorem branches_tags_partition (r : RCSFile) (hwf : (r.Symbols.map Prod.fst).Nodup) :
    (∀ sym ∈ r.Symbols.map Prod.fst,
      (GetBranches r).count sym + ((GetTags r).map Prod.fst).count sym = 1) ∧
    (GetBranches r).Nodup ∧
    (GetBranches r).length + (GetTags r).length = r.Symbols.length ∧
    ∀ k v, mapGet (GetTags r) k = some v → mapGet r.Symbols k = some v := by
  have hperm := List.filter_append_perm (fun p : String × String => isBranchNumber p.2)
    r.Symbols
  rw [GetBranches_eq_filter, GetTags_eq_filter r hwf]
  refine ⟨?_, ?_, ?_, ?_⟩
  · intro sym hsym
    have hc := (hperm.map Prod.fst).count_eq sym
    rw [List.map_append, List.count_append] at hc
    rw [hc]
    exact List.count_eq_one_of_mem hwf hsym
  · exact List.Nodup.sublist ((List.filter_sublist _).map Prod.fst) hwf
  · have hl := hperm.length_eq
    rw [List.length_append] at hl
    rw [List.length_map]
    exact hl
  · intro k v hkv
    have hmem := mapGet_some_mem _ k v hkv
    exact mapGet_of_mem_nodup r.Symbols k v hwf (List.mem_filter.1 hmem).1

/-- Witness of C21 on `vendorFile`: one branch symbol and one tag. -/
theorem branches_tags_partition_witness :
    (GetBranches vendorFile).Nodup ∧
    (GetBranches vendorFile).length + (GetTags vendorFile).length =
      vendorFile.Symbols.length :=
  ⟨(branches_tags_partition vendorFile (by decide)).2.1,
    (branches_tags_partition vendorFile (by decide)).2.2.1⟩

/-! ## Every commit of the output comes from a call of the walk -/

theorem splits_append {P : List Commit → Commit → Prop} (base new1 new2 : List Commit)
    (h1 : ∀ l1 c l2, new1 = l1 ++ c :: l2 → P (base ++ l1) c)
    (h2 : ∀ l1 c l2, new2 = l1 ++ c :: l2 → P (base ++ new1 ++ l1) c) :
    ∀ l1 c l2, new1 ++ new2 = l1 ++ c :: l2 → P (base ++ l1) c := by
  intro l1 c l2 h
  rcases List.append_eq_append_iff.1 h with ⟨a', hl1, hn2⟩ | ⟨c', hn1, hc⟩
  · rw [hl1, ← List.append_assoc]
    exact h2 a' c l2 hn2
  · cases c' with
    | nil =>
      simp only [List.append_nil] at hn1
      simp only [List.nil_append] at hc
      have := h2 [] c l2 hc.symm
      rw [List.append_nil, hn1] at this
      exact this
    | cons x c'' =>
      simp only [List.cons_append, List.cons.injEq] at hc
      rw [← hc.1] at hn1
      exact h1 l1 c c'' hn1

theorem branchStep_of_fuel (r : RCSFile) (n : Nat) (b : String) (s s' : WalkState)
    (h : addCommit r n b (findBranchSymbol r.Symbols b) s = some s') :
    branchStep r b s = some s' :=
  addCommit_fuel_full r n b _ s s' h

theorem walk_emitted (r : RCSFile) (n : Nat)
    (ih : ∀ (rev branch : String) (st st' : WalkState), Called r rev branch st →
      addCommit r n rev branch st = some st' →
      ∃ new, st'.commits = st.commits ++ new ∧
        ∀ l1 c l2, new = l1 ++ c :: l2 → EmittedAfter r (st.commits ++ l1) c)
    (rev branch : String) (st : WalkState) (d : Delta)
    (hcall : Called r rev branch st) (hne : rev ≠ "") (hns : rev ∉ st.seen)
    (hd : mapGet r.Deltas rev = some d)
    (todo : List String) :
    ∀ (done : List String) (s s' : WalkState), d.Branches = done ++ todo →
      walkBranches (branchStep r) done (visitState rev branch d st) = some s →
      walkBranches (fun x => addCommit r n x (findBranchSymbol r.Symbols x)) todo s = some s' →
      ∃ new, s'.commits = s.commits ++ new ∧
        ∀ l1 c l2, new = l1 ++ c :: l2 → EmittedAfter r (s.commits ++ l1) c := by
  induction todo with
  | nil =>
    intro done s s' _ _ hrun
    simp only [walkBranches, Option.some.injEq] at hrun
    subst hrun
    refine ⟨[], by simp, ?_⟩
    intro l1 c l2 h
    cases l1 <;> cases h
  | cons b todo ihl =>
    intro done s s' hsplit hdone hrun
    simp only [walkBranches] at hrun
    cases hb : addCommit r n b (findBranchSymbol r.Symbols b) s with
    | none => rw [hb] at hrun; cases hrun
    | some s1 =>
      rw [hb] at hrun
      simp only [Option.some_bind] at hrun
      have hcb : Called r b (findBranchSymbol r.Symbols b) s :=
        Called.branch rev branch st d done b todo s hcall hne hns hd hsplit hdone
      obtain ⟨new1, e1, p1⟩ := ih b _ s s1 hcb hb
      have hdone' : walkBranches (branchStep r) (done ++ [b]) (visitState rev branch d st) =
          some s1 := by
        rw [walkBranches_append, hdone]
        simp [walkBranches, branchStep_of_fuel r n b s s1 hb]
      obtain ⟨new2, e2, p2⟩ := ihl (done ++ [b]) s1 s' (by rw [hsplit]; simp) hdone' hrun
      refine ⟨new1 ++ new2, by rw [e2, e1, List.append_assoc], ?_⟩
      refine splits_append s.commits new1 new2 p1 ?_
      intro l1 c l2 h
      rw [← e1]
      exact p2 l1 c l2 h

theorem addCommit_emitted (r : RCSFile) (fuel : Nat) (rev branch : String)
    (st st' : WalkState) (hcall : Called r rev branch st)
    (h : addCommit r fuel rev branch st = some st') :
    ∃ new, st'.commits = st.commits ++ new ∧
      ∀ l1 c l2, new = l1 ++ c :: l2 → EmittedAfter r (st.commits ++ l1) c := by
  induction fuel generalizing rev branch st st' with
  | zero => simp [addCommit] at h
  | succ n ih =>
    by_cases hstop : rev = "" ∨ rev ∈ st.seen
    · rw [addCommit, if_pos hstop] at h
      cases h
      refine ⟨[], by simp, ?_⟩
      intro l1 c l2 h
      cases l1 <;> cases h
    · have hne : rev ≠ "" := fun hx => hstop (Or.inl hx)
      have hns : rev ∉ st.seen := fun hx => hstop (Or.inr hx)
      cases hd : mapGet r.Deltas rev with
      | none =>
        rw [addCommit, if_neg hstop, hd] at h
        cases h
        refine ⟨[], by simp, ?_⟩
        intro l1 c l2 h
        cases l1 <;> cases h
      | some d =>
        rw [addCommit_visit r n rev branch st d hne hns hd] at h
        cases hb : walkBranches (fun x => addCommit r n x (findBranchSymbol r.Symbols x))
            d.Branches (visitState rev branch d st) with
        | none => rw [hb] at h; cases h
        | some s2 =>
          rw [hb] at h
          simp only [Option.some_bind] at h
          obtain ⟨new1, e1, p1⟩ := walk_emitted r n ih rev branch st d hcall hne hns hd
            d.Branches [] (visitState rev branch d st) s2 (by simp) rfl hb
          have hnext : Called r d.Next branch s2 :=
            Called.next rev branch st d s2 hcall hne hns hd (walkBranches_full r n _ _ s2 hb)
          obtain ⟨new2, e2, p2⟩ := ih d.Next branch s2 st' hnext h
          have hrest := splits_append (visitState rev branch d st).commits new1 new2 p1
            (by
              intro l1 c l2 hsp
              rw [← e1]
              exact p2 l1 c l2 hsp)
          refine ⟨{ Revision := rev, Author := d.Author, Date := d.Date, Message := d.Log,
                    Branch := branch } :: (new1 ++ new2), ?_, ?_⟩
          · rw [e2, e1]
            simp [visitState]
          · intro l1 c l2 hsp
            cases l1 with
            | nil =>
              simp only [List.nil_append, List.cons.injEq] at hsp
              rw [← hsp.1, List.append_nil]
              exact ⟨st, hcall, hne, hns, rfl⟩
            | cons x l1' =>
              simp only [List.cons_append, List.cons.injEq] at hsp
              have := hrest l1' c l2 hsp.2
              rw [← hsp.1]
              simpa [visitState] using this

theorem GetCommits_emitted (r : RCSFile) (before : List Commit) (c : Commit)
    (after : List Commit) (h : GetCommits r = before ++ c :: after) :
    EmittedAfter r before c := by
  obtain ⟨st', hs, hcs, _⟩ := GetCommits_walk r
  obtain ⟨new, e, p⟩ := addCommit_emitted r _ r.Head "" _ st' Called.head hs
  simp only [List.nil_append] at e p
  exact p before c after (by rw [← e, hcs, h])

theorem walkok_seen_emitted {r : RCSFile} {roots : List String} {s s' : WalkState}
    (hw : WalkOK r roots s s')
    (hs : ∀ u ∈ s.seen, (∃ d, mapGet r.Deltas u = some d) → u ∈ s.commits.map Commit.Revision) :
    ∀ u ∈ s'.seen, (∃ d, mapGet r.Deltas u = some d) →
      u ∈ s'.commits.map Commit.Revision := by
  intro u hu hdel
  by_cases hold : u ∈ s.seen
  · exact (hw.commits_extend.map Commit.Revision).subset (hs u hold hdel)
  · obtain ⟨d, hd⟩ := hdel
    exact (hw.closed u hu hold d hd).1

theorem visitState_seen_emitted (r : RCSFile) (rev branch : String) (d : Delta)
    (st : WalkState)
    (hs : ∀ u ∈ st.seen, (∃ d, mapGet r.Deltas u = some d) →
      u ∈ st.commits.map Commit.Revision) :
    ∀ u ∈ (visitState rev branch d st).seen, (∃ d, mapGet r.Deltas u = some d) →
      u ∈ (visitState rev branch d st).commits.map Commit.Revision := by
  intro u hu hdel
  simp only [visitState, List.mem_cons] at hu
  simp only [visitState, List.map_append, List.map_cons, List.map_nil, List.mem_append,
    List.mem_singleton]
  rcases hu with hu | hu
  · exact Or.inr hu
  · exact Or.inl (hs u hu hdel)

theorem branchStep_walk_ok (r : RCSFile) (bs : List String) (s s' : WalkState)
    (h : walkBranches (branchStep r) bs s = some s') : WalkOK r bs s s' :=
  walkBranches_ok r (branchStep r) (fun b t t' ht => addCommit_ok r _ b _ t t' ht) bs s s' h

theorem called_seen_emitted (r : RCSFile) (rev branch : String) (st : WalkState)
    (h : Called r rev branch st) :
    ∀ u ∈ st.seen, (∃ d, mapGet r.Deltas u = some d) →
      u ∈ st.commits.map Commit.Revision := by
  induction h with
  | head =>
    intro u hu
    cases hu
  | branch rev branch st d pre b post s _ _ _ _ _ hs ih =>
    exact walkok_seen_emitted (branchStep_walk_ok r pre _ s hs)
      (visitState_seen_emitted r rev branch d st ih)
  | next rev branch st d s _ _ _ _ hs ih =>
    exact walkok_seen_emitted (branchStep_walk_ok r d.Branches _ s hs)
      (visitState_seen_emitted r rev branch d st ih)

theorem findBranchSymbol_mem (syms : List (String × String)) (b : String) :
    findBranchSymbol syms b = "" ∨ findBranchSymbol syms b ∈ syms.map Prod.fst := by
  induction syms with
  | nil => exact Or.inl rfl
  | cons p syms ih =>
    obtain ⟨sym, symRev⟩ := p
    by_cases hp : symRev = b ∨ isBranchPrefix symRev b = true
    · simp only [findBranchSymbol, if_pos hp]
      exact Or.inr (by simp)
    · simp only [findBranchSymbol, if_neg hp]
      rcases ih with ih | ih
      · exact Or.inl ih
      · exact Or.inr (by
          rw [List.map_cons]
          exact List.mem_cons_of_mem _ ih)

theorem called_branch_symbol (r : RCSFile) (rev branch : String) (st : WalkState)
    (h : Called r rev branch st) : branch = "" ∨ branch ∈ r.Symbols.map Prod.fst := by
  induction h with
  | head => exact Or.inl rfl
  | branch rev branch st d pre b post s _ _ _ _ _ _ _ => exact findBranchSymbol_mem _ _
  | next rev branch st d s _ _ _ _ _ ih => exact ih

theorem visit_shape (r : RCSFile) (rev branch : String) (st : WalkState) (d : Delta)
    (h : Called r rev branch st) (hne : rev ≠ "") (hns : rev ∉ st.seen)
    (hd : mapGet r.Deltas rev = some d) :
    ∃ tail, GetCommits r = st.commits ++
      ({ Revision := rev, Author := d.Author, Date := d.Date, Message := d.Log,
         Branch := branch } : Commit) :: tail := by
  obtain ⟨st', hrun, hpre⟩ := called_extends r rev branch st h
  rw [addCommit_visit r _ rev branch st d hne hns hd] at hrun
  cases h1 : walkBranches (fun x => addCommit r r.Deltas.length x
      (findBranchSymbol r.Symbols x)) d.Branches (visitState rev branch d st) with
  | none => rw [h1] at hrun; cases hrun
  | some s2 =>
    rw [h1] at hrun
    simp only [Option.some_bind] at hrun
    have hp := ((walkBranches_commits_extend r _ d.Branches _ s2 h1).trans
      (addCommit_ok r _ _ _ _ _ hrun).commits_extend).trans hpre
    obtain ⟨t, ht⟩ := hp
    refine ⟨t, ?_⟩
    rw [← ht]
    simp [visitState]

theorem fresh_after_visit (r : RCSFile) (before : List Commit) (c : Commit) (st : WalkState)
    (d : Delta) (b : String) (hcall : Called r c.Revision c.Branch st)
    (hst : st.commits = before) (hdb : ∃ db, mapGet r.Deltas b = some db)
    (hnew : ∀ c' ∈ before ++ [c], c'.Revision ≠ b) :
    b ∉ (visitState c.Revision c.Branch d st).seen := by
  intro hmem
  simp only [visitState, List.mem_cons] at hmem
  rcases hmem with hmem | hmem
  · exact hnew c (by simp) hmem.symm
  · have := called_seen_emitted r _ _ st hcall b hmem hdb
    rw [hst] at this
    obtain ⟨c', hc', hrev⟩ := List.mem_map.1 this
    exact hnew c' (List.mem_append_left _ hc') hrev

/-! ## The claims about the order of the output -/

/-- C23: let the commit `c` of the output belong to the delta `d`, whose `Branches`
list starts with `b`. If `b` is non-empty, has a delta and is the revision of no
commit at or before `c`, then the commit for `b` is the element immediately
after `c`; hence the commit for `d.Next`, when `d.Next` is another revision
emitted after `c`, comes after the commit for `b`. -/
theorem GetCommits_branches_before_next (r : RCSFile) (before : List Commit) (c : Commit)
    (after : List Commit) (d : Delta) (b : String) (rest : List String) (db : Delta)
    (h : GetCommits r = before ++ c :: after) (hd : mapGet r.Deltas c.Revision = some d)
    (hbr : d.Branches = b :: rest) (hb : b ≠ "") (hdb : mapGet r.Deltas b = some db)
    (hnew : ∀ c' ∈ before ++ [c], c'.Revision ≠ b) :
    ∃ cb tail, after = cb :: tail ∧ cb.Revision = b ∧
      ∀ cn ∈ after, cn.Revision = d.Next → d.Next ≠ b → cn ∈ tail := by
  obtain ⟨st, hcall, hne, hns, hst⟩ := GetCommits_emitted r before c after h
  have hcb : Called r b (findBranchSymbol r.Symbols b) (visitState c.Revision c.Branch d st) :=
    Called.branch c.Revision c.Branch st d [] b rest _ hcall hne hns hd hbr rfl
  have hfresh := fresh_after_visit r before c st d b hcall hst ⟨db, hdb⟩ hnew
  obtain ⟨tail, ht⟩ := visit_shape r b _ _ db hcb hb hfresh hdb
  have hvs : (visitState c.Revision c.Branch d st).commits =
      before ++ [{ Revision := c.Revision, Author := d.Author, Date := d.Date,
                   Message := d.Log, Branch := c.Branch }] := by
    simp [visitState, hst]
  rw [hvs, h, List.append_assoc] at ht
  have ht' := List.append_cancel_left ht
  simp only [List.singleton_append, List.cons.injEq] at ht'
  refine ⟨_, tail, ht'.2, rfl, ?_⟩
  intro cn hcn hrev hne'
  rw [ht'.2] at hcn
  rcases List.mem_cons.1 hcn with hx | hx
  · rw [hx] at hrev
    exact absurd hrev.symm hne'
  · exact hx

/-- Witness of C23: in `featureFile` the commit for the branch head `1.2.2.1` comes
right after the commit for `1.2`, before the commit for its `Next`, `1.1`. -/
theorem GetCommits_branches_before_next_witness :
    ∃ cb tail,
      [({ Revision := "1.2.2.1", Author := "bob", Date := 300, Message := "on branch",
          Branch := "" } : Commit),
       { Revision := "1.1", Author := "alice", Date := 100, Message := "first",
         Branch := "" }] = cb :: tail ∧
      cb.Revision = "1.2.2.1" ∧
      ∀ cn ∈
        [({ Revision := "1.2.2.1", Author := "bob", Date := 300, Message := "on branch",
            Branch := "" } : Commit),
         { Revision := "1.1", Author := "alice", Date := 100, Message := "first",
           Branch := "" }],
        cn.Revision = "1.1" → "1.1" ≠ "1.2.2.1" → cn ∈ tail :=
  GetCommits_branches_before_next featureFile []
    { Revision := "1.2", Author := "alice", Date := 200, Message := "second", Branch := "" }
    _ (mkDelta "1.2" "alice" "second" 200 ["1.2.2.1"] "1.1") "1.2.2.1" []
    (mkDelta "1.2.2.1" "bob" "on branch" 300 [] "")
    (by decide) rfl rfl (by decide) rfl (by decide)

/-- C24: let the commit `c` of the output belong to the delta `d`, whose `Branches`
list is empty. If `d.Next` is non-empty, has a delta and is the revision of no
commit at or before `c`, then the element immediately after `c` is the commit
for `d.Next`, and it has the `Branch` of `c`. -/
theorem GetCommits_next_keeps_branch (r : RCSFile) (before : List Commit) (c : Commit)
    (after : List Commit) (d dn : Delta)
    (h : GetCommits r = before ++ c :: after) (hd : mapGet r.Deltas c.Revision = some d)
    (hbr : d.Branches = []) (hn : d.Next ≠ "") (hdn : mapGet r.Deltas d.Next = some dn)
    (hnew : ∀ c' ∈ before ++ [c], c'.Revision ≠ d.Next) :
    ∃ cn tail, after = cn :: tail ∧ cn.Revision = d.Next ∧ cn.Branch = c.Branch := by
  obtain ⟨st, hcall, hne, hns, hst⟩ := GetCommits_emitted r before c after h
  have hcn : Called r d.Next c.Branch (visitState c.Revision c.Branch d st) :=
    Called.next c.Revision c.Branch st d _ hcall hne hns hd (by rw [hbr]; rfl)
  have hfresh := fresh_after_visit r before c st d d.Next hcall hst ⟨dn, hdn⟩ hnew
  obtain ⟨tail, ht⟩ := visit_shape r d.Next _ _ dn hcn hn hfresh hdn
  have hvs : (visitState c.Revision c.Branch d st).commits =
      before ++ [{ Revision := c.Revision, Author := d.Author, Date := d.Date,
                   Message := d.Log, Branch := c.Branch }] := by
    simp [visitState, hst]
  rw [hvs, h, List.append_assoc] at ht
  have ht' := List.append_cancel_left ht
  simp only [List.singleton_append, List.cons.injEq] at ht'
  exact ⟨_, tail, ht'.2, rfl, rfl⟩

/-- Witness of C24: in `branchChainFile` the commit after the one for `1.2.2.1` is
the commit for its `Next`, `1.2.2.2`, on the same branch `FEATURE_X`. -/
theorem GetCommits_next_keeps_branch_witness :
    ∃ cn tail,
      [({ Revision := "1.2.2.2", Author := "bob", Date := 400, Message := "more",
          Branch := "FEATURE_X" } : Commit),
       { Revision := "1.1", Author := "alice", Date := 100, Message := "first",
         Branch := "" }] = cn :: tail ∧
      cn.Revision = "1.2.2.2" ∧ cn.Branch = "FEATURE_X" :=
  GetCommits_next_keeps_branch branchChainFile
    [{ Revision := "1.2", Author := "alice", Date := 200, Message := "second", Branch := "" }]
    { Revision := "1.2.2.1", Author := "bob", Date := 300, Message := "on branch",
      Branch := "FEATURE_X" }
    _ (mkDelta "1.2.2.1" "bob" "on branch" 300 [] "1.2.2.2")
    (mkDelta "1.2.2.2" "bob" "more" 400 [] "")
    (by decide) rfl rfl (by decide) rfl (by decide)

/-- C25: when `Head` is non-empty and has a delta, the first element of the output
is the commit for `Head`, with the empty branch name; when `Head` is empty or has
no delta, the output is empty. -/
theorem GetCommits_head_first (r : RCSFile) :
    (∀ d, r.Head ≠ "" → mapGet r.Deltas r.Head = some d →
      ∃ tail, GetCommits r =
        ({ Revision := r.Head, Author := d.Author, Date := d.Date, Message := d.Log,
           Branch := "" } : Commit) :: tail) ∧
    (r.Head = "" ∨ mapGet r.Deltas r.Head = none → GetCommits r = []) := by
  constructor
  · intro d hne hd
    obtain ⟨tail, ht⟩ := visit_shape r r.Head "" _ d Called.head hne (by simp) hd
    exact ⟨tail, by simpa using ht⟩
  · intro h
    unfold GetCommits GetCommitsFuel addCommit
    rcases h with h | h
    · simp [h]
    · by_cases hne : r.Head = ""
      · simp [hne]
      · simp [hne, h]

/-- Witness of C25: `trunkFile` starts with its head `1.3`; `headlessFile`, whose
head `1.9` has no delta, gives the empty list although its table has a delta. -/
theorem GetCommits_head_first_witness :
    (∃ tail, GetCommits trunkFile =
      ({ Revision := "1.3", Author := "alice", Date := 102, Message := "fix",
         Branch := "" } : Commit) :: tail) ∧
    GetCommits headlessFile = [] :=
  ⟨(GetCommits_head_first trunkFile).1 (mkDelta "1.3" "alice" "fix" 102 [] "1.2")
      (by decide) rfl,
    (GetCommits_head_first headlessFile).2 (Or.inr (by decide))⟩

/-- C26: the `Branch` of every commit of the output is the empty string or a key
of the symbol table. -/
theorem GetCommits_branch_is_symbol (r : RCSFile) (c : Commit) (h : c ∈ GetCommits r) :
    c.Branch = "" ∨ c.Branch ∈ r.Symbols.map Prod.fst := by
  obtain ⟨before, after, hsplit⟩ := List.append_of_mem h
  obtain ⟨st, hcall, _⟩ := GetCommits_emitted r before c after hsplit
  exact called_branch_symbol r _ _ st hcall

/-- Witness of C26: the branch commit of `exactFile`, on `FEATURE_X`. -/
theorem GetCommits_branch_is_symbol_witness :
    "FEATURE_X" = "" ∨ "FEATURE_X" ∈ exactFile.Symbols.map Prod.fst :=
  GetCommits_branch_is_symbol exactFile
    { Revision := "1.2.2.1", Author := "bob", Date := 300, Message := "on branch",
      Branch := "FEATURE_X" }
    (by decide)

/-! ## The migrations table of the web server -/

theorem mem_mapSet {β : Type} (m : List (String × β)) (k : String) (v : β)
    (p : String × β) (h : p ∈ mapSet m k v) : p ∈ m ∨ p = (k, v) := by
  induction m with
  | nil =>
    simp only [mapSet, List.mem_singleton] at h
    exact Or.inr h
  | cons q m ih =>
    obtain ⟨k0, w⟩ := q
    by_cases h0 : k0 = k
    · simp only [mapSet, if_pos h0, List.mem_cons] at h
      rcases h with h | h
      · exact Or.inr (by rw [h, h0])
      · exact Or.inl (List.mem_cons_of_mem _ h)
    · simp only [mapSet, if_neg h0, List.mem_cons] at h
      rcases h with h | h
      · exact Or.inl (by rw [h]; exact List.mem_cons_self _ _)
      · rcases ih h with h' | h'
        · exact Or.inl (List.mem_cons_of_mem _ h')
        · exact Or.inr h'

theorem keys_mapSet {β : Type} (m : List (String × β)) (k : String) (v : β) (k' : String)
    (h : k' ∈ m.map Prod.fst) : k' ∈ (mapSet m k v).map Prod.fst := by
  induction m with
  | nil => cases h
  | cons q m ih =>
    obtain ⟨k0, w⟩ := q
    by_cases h0 : k0 = k
    · simpa [mapSet, h0] using h
    · simp only [mapSet, if_neg h0, List.map_cons, List.mem_cons] at h ⊢
      rcases h with h | h
      · exact Or.inl h
      · exact Or.inr (ih h)

theorem keys_mapSet_present {β : Type} (m : List (String × β)) (k : String) (v w : β)
    (h : mapGet m k = some w) : (mapSet m k v).map Prod.fst = m.map Prod.fst := by
  induction m with
  | nil => simp [mapGet] at h
  | cons q m ih =>
    obtain ⟨k0, w0⟩ := q
    by_cases h0 : k0 = k
    · simp [mapSet, h0]
    · simp only [mapGet, if_neg h0] at h
      simp [mapSet, h0, ih h]

theorem handleAnalyzeRepo_state (s : Server) (body : Option AnalyzeRequest) :
    (handleAnalyzeRepo s body).1 = s := by
  cases body with
  | none => rfl
  | some req =>
    by_cases hc : req.SourceType = "" ∨ req.SourcePath = ""
    · simp [handleAnalyzeRepo, hc]
    · simp [handleAnalyzeRepo, hc]

theorem handleStartMigration_reject (s : Server) (req : StartMigrationRequest) (id : String)
    (now : Int) (hc : req.SourceType = "" ∨ req.SourcePath = "" ∨ req.TargetPath = "") :
    handleStartMigration s (some req) id now =
      (s, { Status := 400,
            Body := ErrorResponse "VALIDATION_ERROR" "Missing required fields" }) := by
  simp only [handleStartMigration, if_pos hc]

theorem handleStartMigration_accept (s : Server) (req : StartMigrationRequest) (id : String)
    (now : Int) (hc : ¬ (req.SourceType = "" ∨ req.SourcePath = "" ∨ req.TargetPath = "")) :
    handleStartMigration s (some req) id now =
      ({ s with
          migrations := mapSet s.migrations id
            { ID := id, Status := "pending", Percentage := 0, CurrentStep := "Initializing",
              TotalCommits := 0, ProcessedCommits := 0, Errors := [],
              CreatedAt := now, UpdatedAt := now } },
       { Status := 201,
         Body := SuccessResponse (ResponseData.started id "pending" "Migration started") }) := by
  simp only [handleStartMigration, if_neg hc]

theorem handle_table_ok (s : Server) (req : Request) (h : TableOK s) :
    TableOK (s.handle req).1 := by
  cases req with
  | health => exact h
  | list => exact h
  | getConfig => exact h
  | updateConfig decoded =>
    cases decoded <;> exact h
  | get id =>
    simp only [Server.handle, handleGetMigration]
    cases mapGet s.migrations id <;> exact h
  | analyze body =>
    simp only [Server.handle, handleAnalyzeRepo_state]
    exact h
  | start body id now =>
    simp only [Server.handle]
    cases body with
    | none => exact h
    | some req =>
      by_cases hc : req.SourceType = "" ∨ req.SourcePath = "" ∨ req.TargetPath = ""
      · rw [handleStartMigration_reject s req id now hc]
        exact h
      · rw [handleStartMigration_accept s req id now hc]
        intro p hp
        rcases mem_mapSet _ _ _ p hp with hp | hp
        · exact h p hp
        · rw [hp]
          exact ⟨rfl, Or.inl rfl, rfl, rfl⟩
  | stop id now =>
    simp only [Server.handle, handleStopMigration]
    cases hm : mapGet s.migrations id with
    | none => exact h
    | some m =>
      intro p hp
      rcases mem_mapSet _ _ _ p hp with hp | hp
      · exact h p hp
      · obtain ⟨hid, _, hperc, hproc⟩ := h (id, m) (mapGet_some_mem _ _ _ hm)
        rw [hp]
        exact ⟨hid, Or.inr rfl, hperc, hproc⟩

theorem handle_keys (s : Server) (req : Request) (k : String)
    (h : k ∈ s.migrations.map Prod.fst) : k ∈ (s.handle req).1.migrations.map Prod.fst := by
  cases req with
  | health => exact h
  | list => exact h
  | getConfig => exact h
  | updateConfig decoded =>
    cases decoded <;> exact h
  | get id =>
    simp only [Server.handle, handleGetMigration]
    cases mapGet s.migrations id <;> exact h
  | analyze body =>
    simp only [Server.handle, handleAnalyzeRepo_state]
    exact h
  | start body id now =>
    simp only [Server.handle]
    cases body with
    | none => exact h
    | some req =>
      by_cases hc : req.SourceType = "" ∨ req.SourcePath = "" ∨ req.TargetPath = ""
      · rw [handleStartMigration_reject s req id now hc]
        exact h
      · rw [handleStartMigration_accept s req id now hc]
        exact keys_mapSet _ _ _ k h
  | stop id now =>
    simp only [Server.handle, handleStopMigration]
    cases mapGet s.migrations id with
    | none => exact h
    | some m => exact keys_mapSet _ _ _ k h

theorem reachable_table_ok (s : Server) (h : ServerReachable s) : TableOK s := by
  induction h with
  | init config =>
    intro p hp
    cases hp
  | step s req _ ih => exact handle_table_ok s req ih

/-! ## The claims about the web server -/

/-- C27: `handleStartMigration` answers a decoded request with status 400 and code
`VALIDATION_ERROR` if and only if `SourceType`, `SourcePath` or `TargetPath` is
empty; on that rejection and on the `INVALID_JSON` rejection the server is left
as it was; an accepted request is answered with 201 and stores the new entry
under `id`. -/
theorem handleStartMigration_validation (s : Server) (req : StartMigrationRequest)
    (id : String) (now : Int) :
    (((handleStartMigration s (some req) id now).2.Status = 400 ∧
        (handleStartMigration s (some req) id now).2.Body.Error.map APIError.Code =
          some "VALIDATION_ERROR") ↔
      (req.SourceType = "" ∨ req.SourcePath = "" ∨ req.TargetPath = "")) ∧
    ((req.SourceType = "" ∨ req.SourcePath = "" ∨ req.TargetPath = "") →
      (handleStartMigration s (some req) id now).1 = s) ∧
    ((handleStartMigration s none id now).1 = s ∧
      (handleStartMigration s none id now).2.Status = 400 ∧
      (handleStartMigration s none id now).2.Body.Error.map APIError.Code =
        some "INVALID_JSON") ∧
    (¬ (req.SourceType = "" ∨ req.SourcePath = "" ∨ req.TargetPath = "") →
      (handleStartMigration s (some req) id now).2.Status = 201 ∧
      (handleStartMigration s (some req) id now).1.migrations =
        mapSet s.migrations id
          { ID := id, Status := "pending", Percentage := 0, CurrentStep := "Initializing",
            TotalCommits := 0, ProcessedCommits := 0, Errors := [],
            CreatedAt := now, UpdatedAt := now } ∧
      mapGet (handleStartMigration s (some req) id now).1.migrations id =
        some { ID := id, Status := "pending", Percentage := 0,
               CurrentStep := "Initializing", TotalCommits := 0, ProcessedCommits := 0,
               Errors := [], CreatedAt := now, UpdatedAt := now }) := by
  refine ⟨?_, ?_, ⟨rfl, rfl, rfl⟩, ?_⟩
  · by_cases hc : req.SourceType = "" ∨ req.SourcePath = "" ∨ req.TargetPath = ""
    · rw [handleStartMigration_reject s req id now hc]
      exact ⟨fun _ => hc, fun _ => ⟨rfl, rfl⟩⟩
    · rw [handleStartMigration_accept s req id now hc]
      constructor
      · intro h
        have h201 : (201 : Nat) = 400 := h.1
        exact absurd h201 (by decide)
      · intro h
        exact absurd h hc
  · intro hc
    rw [handleStartMigration_reject s req id now hc]
  · intro hc
    rw [handleStartMigration_accept s req id now hc]
    refine ⟨rfl, rfl, ?_⟩
    simp [mapGet_mapSet]

/-- Witness of C27: a request without target path is rejected and leaves
`freshServer` as it was; `cvsRequest` is accepted and stored under its id. -/
theorem handleStartMigration_validation_witness :
    (handleStartMigration freshServer
      (some { SourceType := "cvs", SourcePath := "/tmp/source", TargetPath := "",
              Options := [] }) "id-1" 1000).1 = freshServer ∧
    (handleStartMigration freshServer (some cvsRequest) "id-1" 1000).2.Status = 201 :=
  ⟨(handleStartMigration_validation freshServer
      { SourceType := "cvs", SourcePath := "/tmp/source", TargetPath := "", Options := [] }
      "id-1" 1000).2.1 (Or.inr (Or.inr rfl)),
    ((handleStartMigration_validation freshServer cvsRequest "id-1" 1000).2.2.2
      (by decide)).1⟩

/-- C28: in every server state reached from `NewServer` by calls of the API
handlers, every entry of the migrations table is stored under its `ID`, has
`Status` `pending` or `stopped`, `Percentage = 0` and `ProcessedCommits = 0`; and
a handler call keeps every key of the table. -/
theorem server_table_invariant (s : Server) (h : ServerReachable s) :
    (∀ p ∈ s.migrations, p.1 = p.2.ID ∧ (p.2.Status = "pending" ∨ p.2.Status = "stopped") ∧
      p.2.Percentage = 0 ∧ p.2.ProcessedCommits = 0) ∧
    ∀ (req : Request) (k : String), k ∈ s.migrations.map Prod.fst →
      k ∈ (s.handle req).1.migrations.map Prod.fst :=
  ⟨reachable_table_ok s h, fun req k hk => handle_keys s req k hk⟩

/-- Witness of C28: the entry of the state reached by a start and a stop of the
same migration. -/
theorem server_table_invariant_witness :
    "id-1" = "id-1" ∧ ("stopped" = "pending" ∨ "stopped" = "stopped") ∧
      (0 : Int) = 0 ∧ (0 : Int) = 0 :=
  (server_table_invariant _
    (ServerReachable.step _ (Request.stop "id-1" 2000)
      (ServerReachable.step _ (Request.start (some cvsRequest) "id-1" 1000)
        (ServerReachable.init { Port := 8080, ConfigPath := "", DatabasePath := "" })))).1
    ("id-1",
      { ID := "id-1", Status := "stopped", Percentage := 0, CurrentStep := "Initializing",
        TotalCommits := 0, ProcessedCommits := 0, Errors := [], CreatedAt := 1000,
        UpdatedAt := 2000 })
    (by decide)

/-- C29: for an id in the migrations table `handleStopMigration` sets the `Status`
of that entry to `stopped` and its `UpdatedAt` to the clock reading, and leaves
its other fields, the other entries, the keys and the configuration as they
were; for an id not in the table it answers 404 with code `NOT_FOUND` and leaves
the server as it was; stopping a second time leaves the `Status` `stopped`. -/
theorem handleStopMigration_frame (s : Server) (id : String) (now : Int) :
    (∀ m, mapGet s.migrations id = some m →
      mapGet (handleStopMigration s id now).1.migrations id =
        some { m with Status := "stopped", UpdatedAt := now } ∧
      (∀ k, k ≠ id →
        mapGet (handleStopMigration s id now).1.migrations k = mapGet s.migrations k) ∧
      (handleStopMigration s id now).1.migrations.map Prod.fst =
        s.migrations.map Prod.fst ∧
      (handleStopMigration s id now).1.config = s.config ∧
      (handleStopMigration s id now).2.Status = 200 ∧
      ∀ now', (mapGet
        (handleStopMigration (handleStopMigration s id now).1 id now').1.migrations id).map
          MigrationStatus.Status = some "stopped") ∧
    (mapGet s.migrations id = none →
      (handleStopMigration s id now).1 = s ∧
      (handleStopMigration s id now).2.Status = 404 ∧
      (handleStopMigration s id now).2.Body.Error.map APIError.Code = some "NOT_FOUND") := by
  constructor
  · intro m hm
    have hfirst : mapGet (handleStopMigration s id now).1.migrations id =
        some { m with Status := "stopped", UpdatedAt := now } := by
      simp [handleStopMigration, hm, mapGet_mapSet]
    refine ⟨hfirst, ?_, ?_, ?_, ?_, ?_⟩
    · intro k hk
      simp [handleStopMigration, hm, mapGet_mapSet, Ne.symm hk]
    · simp only [handleStopMigration, hm]
      exact keys_mapSet_present _ _ _ m hm
    · simp [handleStopMigration, hm]
    · simp [handleStopMigration, hm]
    · intro now'
      simp only [handleStopMigration, hm, mapGet_mapSet, if_true, Option.map_some']
  · intro hm
    simp [handleStopMigration, hm, ErrorResponse]

/-- Witness of C29: stopping `id-1` on `oneMigrationServer`, and stopping an id the
table does not have. -/
theorem handleStopMigration_frame_witness :
    (mapGet (handleStopMigration oneMigrationServer "id-1" 2000).1.migrations "id-1" =
      some { ID := "id-1", Status := "stopped", Percentage := 0,
             CurrentStep := "Initializing", TotalCommits := 0, ProcessedCommits := 0,
             Errors := [], CreatedAt := 1000, UpdatedAt := 2000 }) ∧
    (handleStopMigration oneMigrationServer "id-2" 2000).2.Status = 404 :=
  ⟨((handleStopMigration_frame oneMigrationServer "id-1" 2000).1
      { ID := "id-1", Status := "pending", Percentage := 0, CurrentStep := "Initializing",
        TotalCommits := 0, ProcessedCommits := 0, Errors := [], CreatedAt := 1000,
        UpdatedAt := 1000 } (by decide)).1,
    ((handleStopMigration_frame oneMigrationServer "id-2" 2000).2 (by decide)).2.1⟩

end GitMigrator
